import Mathlib

/-!
Shallow embedding of the transcription post-processing core of the
voxly backend (`backend/app/transcription/`): text cleaning
(`cleaning.py`), the decode-pass reconciliation and segment filtering
(`service.py`, `whisper.py`), translation chunking (`translate.py`) and
audio chunking (`audio_utils.py`).

Python strings are modelled as `List Char`; `str.split()` /
`re.split` / `re.sub(r"\s+", " ", ...)` are modelled by structural
(fuel-free or fuel-bounded) recursions so that every definition reduces
in the kernel.  Machine floats only appear in the sources in
comparisons of the form `a / b < c` or `len2 < len1 * 0.7` between
small integers and the literals 0.3, 0.5, 0.7; for the magnitudes that
can occur (counts far below 2^40) these float comparisons coincide with
the exact rational comparisons `10 * a < 3 * b`, `2 * a >= b`,
`10 * len2 < 7 * len1`, which is how they are embedded (the rounding
error of the double literals is below 2^-50 relative, far smaller than
the 1/(10*b) gap to the nearest non-equal rational with these
denominators).
-/

namespace Voxly

/-- Whitespace class of Python `str.split()` and of the regex `\s`
(ASCII range; the repository's texts are whitespace-separated words). -/
def isSpace (c : Char) : Bool :=
  c = ' ' || c = '\t' || c = '\n' || c = '\r' || c = '\x0b' || c = '\x0c'

/-- Sentence punctuation class `[.!?]` used by `cleaning.py` and
`translate.py`. -/
def isPunct (c : Char) : Bool :=
  c = '.' || c = '!' || c = '?'

/-- Python `str.lower()` (ASCII; the cleaning code only compares
lowered words for equality). -/
def pyLower (s : List Char) : List Char := s.map Char.toLower

/-- Right strip: drop trailing whitespace. -/
def rstrip (s : List Char) : List Char :=
  (s.reverse.dropWhile isSpace).reverse

/-- Python `str.strip()`. -/
def pyStrip (s : List Char) : List Char :=
  rstrip (s.dropWhile isSpace)

/-- State machine for `re.sub(r"\s+", " ", s)`: the flag records whether
the previous character was whitespace (already emitted as one space). -/
def collapseWsAux : Bool → List Char → List Char
  | _, [] => []
  | prev, c :: rest =>
    if isSpace c then
      if prev then collapseWsAux true rest else ' ' :: collapseWsAux true rest
    else c :: collapseWsAux false rest

/-- Python `re.sub(r"\s+", " ", s)`: collapse every whitespace run to a
single space (no stripping). -/
def collapseWs (s : List Char) : List Char := collapseWsAux false s

/-- State machine for Python `str.split()`: `acc` holds the reversed
current word. Empty tokens are never produced. -/
def splitWsAux : List Char → List Char → List (List Char)
  | acc, [] => if acc = [] then [] else [acc.reverse]
  | acc, c :: rest =>
    if isSpace c then
      if acc = [] then splitWsAux [] rest else acc.reverse :: splitWsAux [] rest
    else splitWsAux (c :: acc) rest

/-- Python `str.split()` on whitespace. -/
def splitWs (s : List Char) : List (List Char) := splitWsAux [] s

/-- Python `" ".join(ws)`. -/
def joinWords : List (List Char) → List Char
  | [] => []
  | [w] => w
  | w :: v :: ws => w ++ ' ' :: joinWords (v :: ws)

/-- State machine for `re.split(r"([.!?]+)", s)`: alternating no-match
parts and captured punctuation runs (empty no-match parts included, as
in Python).  `mode = true` means we are inside a punctuation run. -/
def splitPunctAux : Bool → List Char → List Char → List (List Char)
  | false, acc, [] => [acc.reverse]
  | true, acc, [] => [acc.reverse, []]
  | false, acc, c :: rest =>
    if isPunct c then acc.reverse :: splitPunctAux true [c] rest
    else splitPunctAux false (c :: acc) rest
  | true, acc, c :: rest =>
    if isPunct c then splitPunctAux true (c :: acc) rest
    else acc.reverse :: splitPunctAux false [c] rest

/-- Python `re.split(r"([.!?]+)", s)`. -/
def splitPunct (s : List Char) : List (List Char) := splitPunctAux false [] s

/-! ### `cleaning.py`: `detectar_anomalia_repeticao` -/

/-- Number of distinct lowercased words: `len(set(p.lower() for p in ws))`. -/
def contarUnicos (ws : List (List Char)) : Nat :=
  ((ws.map pyLower).dedup).length

/-- All `n`-grams of the word list, each as a lowercased joined string:
`" ".join(palavras[i:i+n]).lower()` for `i in range(len(palavras)-n+1)`. -/
def ngramas (n : Nat) (ws : List (List Char)) : List (List Char) :=
  (List.range (ws.length + 1 - n)).map
    (fun i => pyLower (joinWords ((ws.drop i).take n)))

/-- Test of `cleaning.py` lines 33-41: some n-gram of length 3..5 occurs
more than 10 times (`max(ngrams.values()) > 10`). -/
def temNgramaRepetido (ws : List (List Char)) : Bool :=
  [3, 4, 5].any (fun n =>
    let l := ngramas n ws
    decide (l ≠ []) && l.any (fun g => 10 < l.count g))

/-- Embedding of `detectar_anomalia_repeticao` (`cleaning.py` lines 7-43;
byte-identical copy `_detectar_anomalia_repeticao` in `service.py`
lines 35-64).  The float test `razao_unicos < 0.3` is embedded as
`10 * unicos < 3 * total` (see the header note on floats). -/
def detectar_anomalia_repeticao (texto : List Char) : Bool :=
  if texto = [] || texto.length < 50 then false
  else
    let palavras := splitWs texto
    if palavras.length < 10 then false
    else if 10 * contarUnicos palavras < 3 * palavras.length then true
    else temNgramaRepetido palavras

/-! ### `cleaning.py`: `_reconstruir_sentencas` -/

/-- Loop body of `_reconstruir_sentencas` (`cleaning.py` lines 46-78)
over the parts of `re.split(r"([.!?]+)", texto)`, with the running
`buffer`. -/
def reconstruirAux : List Char → List (List Char) → List (List Char)
  | buffer, [] =>
    if buffer ≠ [] ∧ 5 < buffer.length then [buffer] else []
  | buffer, parte0 :: rest =>
    let parte := pyStrip parte0
    if parte = [] then reconstruirAux buffer rest
    else if parte.any isPunct then
      if buffer ≠ [] then
        let sentenca := pyStrip (buffer ++ ' ' :: parte)
        if 5 < sentenca.length then sentenca :: reconstruirAux [] rest
        else reconstruirAux [] rest
      else
        if 5 < parte.length then parte :: reconstruirAux [] rest
        else reconstruirAux [] rest
    else
      if buffer = [] then reconstruirAux parte rest
      else reconstruirAux (pyStrip (buffer ++ ' ' :: parte)) rest

/-- Embedding of `_reconstruir_sentencas` (`cleaning.py` lines 46-78). -/
def reconstruirSentencas (texto : List Char) : List (List Char) :=
  reconstruirAux [] (splitPunct texto)

/-! ### `cleaning.py`: `_remover_repeticoes_sentencas` -/

/-- Normalization `re.sub(r"\s+", " ", sentenca.lower().strip())` used
for comparing sentences. -/
def normalizarSentenca (s : List Char) : List Char :=
  collapseWs (pyStrip (pyLower s))

/-- Loop of `_remover_repeticoes_sentencas` (`cleaning.py` lines 81-107)
with state `ultima_sentenca` / `contador_repeticao`. -/
def removerRepAux : Option (List Char) → Nat → List (List Char) → List (List Char)
  | _, _, [] => []
  | ultima, contador, s :: rest =>
    let norm := normalizarSentenca s
    if some norm = ultima then
      if contador + 1 ≤ 1 then s :: removerRepAux ultima (contador + 1) rest
      else removerRepAux ultima (contador + 1) rest
    else s :: removerRepAux (some norm) 1 rest

/-- Embedding of `_remover_repeticoes_sentencas` (`cleaning.py` lines
81-107). -/
def removerRepeticoesSentencas (sentencas : List (List Char)) : List (List Char) :=
  removerRepAux none 0 sentencas

/-! ### `cleaning.py`: `_remover_repeticoes_padroes` -/

/-- The `PALAVRAS_IGNORAR` set of `cleaning.py` lines 127-130 (the
`service.py` copy lists the same words with duplicates). -/
def PALAVRAS_IGNORAR : List (List Char) :=
  [("o").toList, ("a").toList, ("e").toList, ("de").toList, ("que").toList,
   ("em").toList, ("um").toList, ("uma").toList, ("é").toList, ("foi").toList,
   ("ser").toList, ("se").toList, ("para").toList, ("com").toList, ("por").toList]

/-- Pattern key `" ".join(palavras[i:i+L]).lower().strip()`. -/
def patKey (ws : List (List Char)) : List Char :=
  pyStrip (pyLower (joinWords ws))

/-- Python slice `palavras[i:i+n]`. -/
def slice (ws : List (List Char)) (i n : Nat) : List (List Char) :=
  (ws.drop i).take n

/-- Repetition limit of `cleaning.py` lines 174-179: 2 for patterns of
up to 5 words, 1 for longer patterns. -/
def limite (L : Nat) : Nat := if L ≤ 5 then 2 else 1

/-- Inner counting loop (`cleaning.py` lines 159-168): count consecutive
occurrences of the pattern key starting at `j`, stepping by `L`.  The
fuel dominates the iteration count (each step advances `j` by `L ≥ 1`,
and the loop stops once `j + L > ws.length`). -/
def countRepsAux (ws : List (List Char)) (L : Nat) (key : List Char) :
    Nat → Nat → Nat → Nat
  | 0, _, reps => reps
  | fuel + 1, j, reps =>
    if j + L ≤ ws.length ∧ patKey (slice ws j L) = key then
      countRepsAux ws L key fuel (j + L) (reps + 1)
    else reps

/-- Number of consecutive repetitions of the pattern at `i` of length
`L`, starting count at 1 (the occurrence at `i` itself). -/
def countReps (ws : List (List Char)) (L i : Nat) : Nat :=
  countRepsAux ws L (patKey (slice ws i L)) (ws.length + 1) (i + L) 1

/-- Position scan (`cleaning.py` lines 148-189): `while i <
len(palavras) - L*2`, returning the collapsed word list of line 183 on
the first excessive repetition found, or `none`.  Fuel bounds the `i`
walk (at most `ws.length` increments). -/
def scanPosAux (ws : List (List Char)) (L : Nat) : Nat → Nat → Option (List (List Char))
  | 0, _ => none
  | fuel + 1, i =>
    if i + 2 * L < ws.length then
      if L = 1 ∧ patKey (slice ws i L) ∈ PALAVRAS_IGNORAR then
        scanPosAux ws L fuel (i + 1)
      else
        let reps := countReps ws L i
        if limite L < reps then
          some (ws.take (i + L) ++ ws.drop (i + L * reps))
        else scanPosAux ws L fuel (i + 1)
    else none

/-- Pattern-length scan (`cleaning.py` line 144): `for L in
range(min(12, n//2), 0, -1)` (the guard `L > len(palavras)` of line 145
is vacuous since `L ≤ n/2`). The argument is the current `L`. -/
def scanLsAux (ws : List (List Char)) : Nat → Option (List (List Char))
  | 0 => none
  | L + 1 =>
    match scanPosAux ws (L + 1) ws.length 0 with
    | some r => some r
    | none => scanLsAux ws L

/-- One full scan of all pattern lengths over the current word list. -/
def padroesStep (ws : List (List Char)) : Option (List (List Char)) :=
  scanLsAux ws (min 12 (ws.length / 2))

/-- Outer `while iteracao < max_iteracoes` loop of
`_remover_repeticoes_padroes` (`cleaning.py` lines 133-198): each
removal rejoins the words with single spaces and restarts; a scan with
no removal returns the current text.  (The secondary exit `texto_limpo
== texto_anterior` of line 195 never fires: a removal drops at least
one nonempty word, so the rejoined text is strictly shorter.) -/
def padroesLoop : Nat → List Char → List Char
  | 0, t => t
  | fuel + 1, t =>
    let ws := splitWs t
    if ws.length < 3 then t
    else
      match padroesStep ws with
      | none => t
      | some ws2 => padroesLoop fuel (joinWords ws2)

/-- Embedding of `_remover_repeticoes_padroes` (`cleaning.py` lines
110-200), with `max_iteracoes = 15`. -/
def removerRepeticoesPadroes (texto : List Char) : List Char :=
  if texto = [] then texto else padroesLoop 15 texto

/-! ### `cleaning.py`: `limpar_repeticoes` and
`aplicar_limpeza_condicional` -/

/-- Embedding of `limpar_repeticoes` (`cleaning.py` lines 203-230):
pattern removal, sentence reconstruction, sentence dedup, join, then
`re.sub(r"\s+", " ", .).strip()`. -/
def limpar_repeticoes (texto : List Char) : List Char :=
  if texto = [] then texto
  else
    let t1 := removerRepeticoesPadroes texto
    let sents := reconstruirSentencas t1
    let sents2 := removerRepeticoesSentencas sents
    pyStrip (collapseWs (joinWords sents2))

/-- Embedding of `aplicar_limpeza_condicional` (`cleaning.py` lines
233-261), stripped of logging: clean only when the detector fires. -/
def aplicar_limpeza_condicional (texto : List Char) : List Char :=
  if detectar_anomalia_repeticao texto then limpar_repeticoes texto else texto

/-! ### `service.py`: two-pass reconciliation (lines 290-300) -/

/-- Condition of `service.py` line 296 choosing the isolated (pass-2)
text: `len(texto_passada2) < len(texto_passada1) * 0.7 or
_detectar_anomalia_repeticao(texto_passada1)`.  The float product
`len1 * 0.7` is embedded as the exact `10 * len2 < 7 * len1` (see the
header note). -/
def escolhePassada2 (texto1 texto2 : List Char) : Bool :=
  decide (10 * texto2.length < 7 * texto1.length) ||
    detectar_anomalia_repeticao texto1

/-- Reconciliation of `service.py` lines 296-300: keep pass 2's result
when `escolhePassada2`, else keep pass 1's. -/
def reconciliar (texto1 texto2 : List Char) : List Char :=
  if escolhePassada2 texto1 texto2 then texto2 else texto1

/-! ### `whisper.py`: `filtrar_segmentos` (lines 142-195) -/

/-- One Whisper segment with its self-reported statistics (spec §3
`Segment`); the float statistics are modelled as rationals. -/
structure Segmento where
  text : List Char
  no_speech_prob : ℚ
  avg_logprob : ℚ
  taxa_compressao : ℚ
deriving DecidableEq

/-- Decode result: full text plus the optional `segments` list (the
code guards on `"segments" in result`). -/
structure Resultado where
  text : List Char
  segments : Option (List Segmento)
deriving DecidableEq

/-- Per-segment keep test of `whisper.py` lines 156-180: the three
thresholds (`no_speech_prob < 0.6`, `avg_logprob > -0.4`,
`compression_ratio < 2.0`) plus, for segments of more than 3 words, the
intra-segment uniqueness test `palavras_unicas / len(palavras) >= 0.5`
(embedded exactly as `len ≤ 2 * unicas`). -/
def segmentoValido (s : Segmento) : Bool :=
  if s.no_speech_prob < 6 / 10 ∧ -(4 / 10) < s.avg_logprob ∧ s.taxa_compressao < 2 then
    let palavras := splitWs (pyStrip s.text)
    if 3 < palavras.length then decide (palavras.length ≤ 2 * contarUnicos palavras)
    else true
  else false

/-- Embedding of `filtrar_segmentos` (`whisper.py` lines 142-195): the
text is rebuilt from the surviving segments only when at least one
survives; otherwise the result is returned unchanged. -/
def filtrar_segmentos (r : Resultado) : Resultado :=
  match r.segments with
  | none => r
  | some segs =>
    let validos := segs.filter segmentoValido
    if validos ≠ [] then
      Resultado.mk (joinWords (validos.map (fun s => pyStrip s.text))) r.segments
    else r

/-! ### `translate.py`: `translate_en_to_pt` (lines 24-84) -/

/-- State machine for `re.split(r"([.!?]+(?:\s+|$))", text)`: a
punctuation run is a separator only when followed by whitespace or the
end of the string (together with that whitespace); otherwise its
characters stay in the surrounding no-match part.  Fuel bounds the
character walk (each step consumes at least one character). -/
def splitTransAux : Nat → List Char → List Char → List (List Char)
  | _, acc, [] => [acc.reverse]
  | 0, acc, s => [acc.reverse ++ s]
  | fuel + 1, acc, c :: rest =>
    if isPunct c then
      let p := (c :: rest).takeWhile isPunct
      let r1 := (c :: rest).dropWhile isPunct
      let w := r1.takeWhile isSpace
      let r2 := r1.dropWhile isSpace
      if r1 = [] ∨ w ≠ [] then
        acc.reverse :: (p ++ w) :: splitTransAux fuel [] r2
      else splitTransAux fuel (p.reverse ++ acc) r1
    else splitTransAux fuel (c :: acc) rest

/-- Python `re.split(r"([.!?]+(?:\s+|$))", s)` of `translate.py` line 40. -/
def splitTrans (s : List Char) : List (List Char) :=
  splitTransAux s.length [] s

/-- The `max_chunk_size = 400` of `translate.py` line 43. -/
def maxChunkSize : Nat := 400

/-- Chunk accumulation loop of `translate.py` lines 45-53. -/
def montarChunksAux : List Char → List (List Char) → List (List Char)
  | current, [] => if pyStrip current ≠ [] then [pyStrip current] else []
  | current, part :: rest =>
    if maxChunkSize < current.length + part.length ∧ current ≠ [] then
      pyStrip current :: montarChunksAux part rest
    else montarChunksAux (current ++ part) rest

/-- Chunking of `translate.py` lines 40-56 (including the `if not
chunks: chunks = [text]` fallback). -/
def montarChunks (text : List Char) : List (List Char) :=
  let cs := montarChunksAux [] (splitTrans text)
  if cs = [] then [text] else cs

/-- Translation loop of `translate.py` lines 60-79.  The external
translator is an oracle `tr`: `some t` models a successful call
returning `t`, `none` models the call raising an exception, in which
case the original chunk is substituted (`except` branch, line 79).
Whitespace-only chunks are skipped (line 62). -/
def traduzirPartes (tr : List Char → Option (List Char)) :
    List (List Char) → List (List Char)
  | [] => []
  | chunk :: rest =>
    if pyStrip chunk = [] then traduzirPartes tr rest
    else
      match tr chunk with
      | some t => t :: traduzirPartes tr rest
      | none => chunk :: traduzirPartes tr rest

/-- Embedding of `translate_en_to_pt` (`translate.py` lines 24-84):
chunk, translate each chunk best-effort, join with single spaces, fall
back to the input when the result is empty. -/
def translate_en_to_pt (tr : List Char → Option (List Char)) (text : List Char) :
    List Char :=
  if text = [] then text
  else
    let result := joinWords (traduzirPartes tr (montarChunks text))
    if result = [] then text else result

/-! ### `audio_utils.py`: `split_audio_into_chunks` (lines 43-130) -/

/-- Python float modulo `a % b` for nonnegative `a` and positive `b`,
modelled over the rationals. -/
def pyModQ (a b : ℚ) : ℚ := a - b * ((⌊a / b⌋ : ℤ) : ℚ)

/-- The chunk count of `audio_utils.py` line 75:
`int(total_duration / chunk_duration) + (1 if total_duration %
chunk_duration > 0 else 0)` (durations are nonnegative, so `int`
truncation is the floor). -/
def num_chunks (d : ℚ) (cd : ℕ) : ℕ :=
  (⌊d / (cd : ℚ)⌋).toNat + (if 0 < pyModQ d (cd : ℚ) then 1 else 0)

/-- Decimal digit character. -/
def digitChar (d : Nat) : Char := Char.ofNat (48 + d)

/-- Decimal digits of a natural number, most significant first; fuel
bounds the division chain. -/
def natDigitsAux : Nat → Nat → List Char → List Char
  | 0, _, acc => acc
  | fuel + 1, n, acc =>
    if n < 10 then digitChar n :: acc
    else natDigitsAux fuel (n / 10) (digitChar (n % 10) :: acc)

/-- Decimal representation of a natural number. -/
def natDigits (n : Nat) : List Char := natDigitsAux (n + 1) n []

/-- Python format `f"{i:03d}"`: pad with leading zeros to width 3
(numbers of 4 or more digits are rendered in full). -/
def pad3 (i : Nat) : List Char :=
  List.replicate (3 - (natDigits i).length) '0' ++ natDigits i

/-- Chunk file name of `audio_utils.py` line 81:
`f"{request_id}_chunk_{i:03d}{ext}"`. -/
def chunkName (rid ext : List Char) (i : Nat) : List Char :=
  rid ++ ("_chunk_").toList ++ pad3 i ++ ext

/-- The per-chunk extraction parameters of the loop in
`audio_utils.py` lines 79-103 on the success path: the `-ss` start
offset `i * chunk_duration` and the output file name, in loop order. -/
def chunk_specs (rid ext : List Char) (d : ℚ) (cd : ℕ) : List (ℕ × List Char) :=
  (List.range (num_chunks d cd)).map (fun i => (i * cd, chunkName rid ext i))

/-- The list of chunk paths returned by `split_audio_into_chunks`
(success path: every ffmpeg invocation, possibly via the last-chunk
fallback, appends its path). -/
def split_audio_into_chunks (rid ext : List Char) (d : ℚ) (cd : ℕ) :
    List (List Char) :=
  (chunk_specs rid ext d cd).map Prod.snd

/-- Lexicographic (byte-code) order on file names, as used by Python
string sorting. -/
def lexLt : List Char → List Char → Bool
  | [], [] => false
  | [], _ :: _ => true
  | _ :: _, [] => false
  | x :: xs, y :: ys =>
    if x.toNat < y.toNat then true
    else if y.toNat < x.toNat then false
    else lexLt xs ys

/-! ### Spec-modelled pipeline orchestration (spec §4.5, §5)

The chunked orchestration (the `SEGMENTING` state and the parallel
per-chunk decode with an index-keyed results table) is described in the
spec but not present under `src/`; only its callee
`split_audio_into_chunks` is.  It is modelled here from the spec's
words. -/

/-- Decode options; the only field the orchestration claims depend on
is the conditioning flag (spec §3 `DecodeOptions`). -/
structure OpcoesDecodificacao where
  conditionOnPreviousText : Bool
deriving DecidableEq

/-- The "contextual" configuration (pass 1). -/
def opcoesContextual : OpcoesDecodificacao := OpcoesDecodificacao.mk true

/-- The "isolated" configuration (pass 2 and all chunk decodes). -/
def opcoesIsolada : OpcoesDecodificacao := OpcoesDecodificacao.mk false

/-- Modelled from the spec: an `AudioUnit` (spec §3) — a contiguous
span with start offset, nominal duration and sequence index. -/
structure AudioUnit where
  startOffset : ℚ
  nominalDuration : ℚ
  index : ℕ
deriving DecidableEq

/-- Modelled from the spec: the Segmenter's units for a file of
duration `d` — fixed 600-second chunks, `ceil(d/600)` of them, the
`i`-th starting at `i*600`, the last possibly shorter (spec §3
`AudioUnit` invariant, §4.1 policy).  The unit count reuses the chunk
count embedded from `audio_utils.py`. -/
def segmentarAudio (d : ℚ) : List AudioUnit :=
  (List.range (num_chunks d 600)).map
    (fun (i : ℕ) => AudioUnit.mk (600 * (i : ℚ)) (min 600 (d - 600 * (i : ℚ))) i)

/-- Modelled from the spec: a fixed-size results table keyed by chunk
index (spec §5: "results are collected by chunk index into a
fixed-size results table (not a queue)").  `ordem` is the completion
order of the chunk workers. -/
def fillTable (res : ℕ → List Char) :
    List ℕ → (ℕ → Option (List Char)) → ℕ → Option (List Char)
  | [], tbl => tbl
  | i :: rest, tbl =>
    fillTable res rest (fun j => if j = i then some (res i) else tbl j)

/-- Modelled from the spec: chunked transcription — every chunk is
decoded with the "isolated" options only (spec §4.5: "Chunks always use
the 'isolated' pass only (no loop-detection retry)"), results are
collected into the index-keyed table in completion order `ordem`, and
the merged text joins the table in index order with single spaces
(spec §8 end-to-end scenario). -/
def transcreverSegmentado (decode : AudioUnit → OpcoesDecodificacao → List Char)
    (d : ℚ) (ordem : List ℕ) : List Char :=
  let units := segmentarAudio d
  let res := fun i =>
    match units.get? i with
    | some u => decode u opcoesIsolada
    | none => []
  let tbl := fillTable res ordem (fun _ => none)
  joinWords ((List.range units.length).map (fun i => (tbl i).getD []))

/-- Modelled from the spec: the per-file orchestration enters
`SEGMENTING` exactly when the measured duration exceeds 600 seconds
(spec §4.5); otherwise the file is processed as a single unit, whose
result `semSegmentacao` is opaque to the segmentation claims. -/
def pipelineTranscrever (decode : AudioUnit → OpcoesDecodificacao → List Char)
    (semSegmentacao : List Char) (d : ℚ) (ordem : List ℕ) : List Char :=
  if 600 < d then transcreverSegmentado decode d ordem else semSegmentacao

/-! ### Specification-side sentence dedup (for the C5 refinement) -/

/-- Tail of the run collapse: drop sentences whose normalization equals
that of the last kept sentence. -/
def colapsarAux (prev : List Char) : List (List Char) → List (List Char)
  | [] => []
  | s :: rest =>
    if normalizarSentenca s = prev then colapsarAux prev rest
    else s :: colapsarAux (normalizarSentenca s) rest

/-- Specification-side description of the sentence dedup (spec §4.4
step 5): collapse every maximal consecutive run of sentences with equal
normalization to exactly its first element. -/
def colapsarRunsSpec : List (List Char) → List (List Char)
  | [] => []
  | s :: rest => s :: colapsarAux (normalizarSentenca s) rest

/-! ### Normal-form predicates and block decomposition (for C4) -/

/-- A word as produced by `splitWs`: nonempty and whitespace-free. -/
def palavraBoa (w : List Char) : Prop :=
  w ≠ [] ∧ ∀ c ∈ w, isSpace c = false

/-- A word that is entirely sentence punctuation or entirely free of
it.  All words of a cleaned text have this shape. -/
def palavraHomogenea (w : List Char) : Prop :=
  (∀ c ∈ w, isPunct c = true) ∨ (∀ c ∈ w, isPunct c = false)

/-- Normal form of cleaned texts: single-space joined words, each
either pure punctuation or punctuation-free. -/
def Normalizado (t : List Char) : Prop :=
  t = joinWords (splitWs t) ∧ ∀ w ∈ splitWs t, palavraHomogenea w

/-- Word-level punctuation classifier (matches `re.search(r"[.!?]+")`
on a single word). -/
def ehPontuacao (w : List Char) : Bool := w.any isPunct

/-- Block decomposition of a word list: each punctuation word closes
the block accumulated so far (`acc` holds the reversed pending
punctuation-free words); a trailing punctuation-free group forms a
final block. -/
def blocosAux (acc : List (List Char)) : List (List Char) → List (List (List Char))
  | [] => if acc = [] then [] else [acc.reverse]
  | w :: rest =>
    if ehPontuacao w then (acc.reverse ++ [w]) :: blocosAux [] rest
    else blocosAux (w :: acc) rest

/-- Blocks of a word list. -/
def blocos (ws : List (List Char)) : List (List (List Char)) := blocosAux [] ws

/-- The `re.split(r"([.!?]+)")` no-match part preceding a punctuation
run, for pending gap words `g`: a leading space when the gap follows an
earlier run (`sp`), the joined gap words, and the trailing space
separating them from the punctuation word. -/
def gapSeguido (sp : Bool) (g : List (List Char)) : List Char :=
  (if sp then [' '] else []) ++ (if g = [] then [] else joinWords g ++ [' '])

/-- The final no-match part (no punctuation run follows). -/
def gapFinal (sp : Bool) (g : List (List Char)) : List Char :=
  (if sp then [' '] else []) ++ joinWords g

/-- Word-level description of `splitPunct (joinWords ws)` for word
lists in normal form: alternating gap parts and punctuation words. -/
def partsAux : Bool → List (List Char) → List (List Char) → List (List Char)
  | sp, g, [] => [gapFinal sp g]
  | sp, g, w :: rest =>
    if ehPontuacao w then
      gapSeguido sp g :: w :: (if rest = [] then [[]] else partsAux true [] rest)
    else partsAux sp (g ++ [w]) rest

/-! ### Concrete instances used by witnesses -/

/-- A segment failing every filter threshold. -/
def segRuim : Segmento :=
  Segmento.mk (("bla bla bla bla").toList) (9 / 10) (-1) 3

/-- A decode result whose only segment fails the filter. -/
def resRuim : Resultado :=
  Resultado.mk (("texto original completo").toList) (some [segRuim])

/-! ## Theorems -/

/-- Claim C1 — counterexample.  The claim asserts that the detector
returns true on `"a a a a a a a a a a"`; in the code that input is 19
characters long, below the 50-character minimum, so the detector
returns false. -/
theorem c1_counterexample :
    detectar_anomalia_repeticao (("a a a a a a a a a a").toList) = false ∧
      (("a a a a a a a a a a").toList).length = 19 := by
  decide

/-- Claim C1 (amended): the detector returns false on both example
inputs — the 10-token repetitive input falls below the 50-character
minimum — while a repetitive input long enough to pass the size guards
(26 repeated tokens, 51 characters) is flagged. -/
theorem c1_amended :
    detectar_anomalia_repeticao (("a a a a a a a a a a").toList) = false ∧
      detectar_anomalia_repeticao
        (("the quick brown fox jumps over the lazy dog").toList) = false ∧
      detectar_anomalia_repeticao (joinWords (List.replicate 26 (['a']))) = true := by
  refine ⟨by decide, by decide, by decide⟩

/-- Claim C3 — counterexample.  `limpar_repeticoes "ok"` is not the
input unchanged: the sentence-reconstruction stage drops fragments of
at most 5 characters, so a 1-word input comes back empty. -/
theorem c3_counterexample :
    (splitWs (("ok").toList)).length < 3 ∧
      limpar_repeticoes (("ok").toList) = [] ∧
      limpar_repeticoes (("ok").toList) ≠ ("ok").toList := by
  decide

/-- Claim C3 (amended): for an input of fewer than 3 whitespace words
the word-pattern-removal stage `_remover_repeticoes_padroes` returns
the input unchanged; the full cleaner `limpar_repeticoes` additionally
reconstructs sentences, which may drop fragments of at most 5
characters and normalize whitespace, so it need not return the input
verbatim. -/
theorem c3_amended (t : List Char) (h : (splitWs t).length < 3) :
    removerRepeticoesPadroes t = t := by
  by_cases ht : t = []
  · simp [removerRepeticoesPadroes, ht]
  · have h15 : (15 : Nat) = 14 + 1 := rfl
    simp only [removerRepeticoesPadroes, ht, if_neg, if_false]
    rw [h15]
    simp [padroesLoop, h]

/-- Witness for the amended C3 at the concrete 2-word input
`"hi there"`. -/
theorem c3_amended_witness :
    (splitWs (("hi there").toList)).length < 3 ∧
      removerRepeticoesPadroes (("hi there").toList) = ("hi there").toList :=
  ⟨by decide, c3_amended (("hi there").toList) (by decide)⟩

/-- Claim C5 — counterexample.  The sentence `"no no no no yes."`
(longer than 5 characters after reconstruction) repeated 3 times
consecutively does not appear exactly once after cleaning: the
word-pattern stage also rewrites the inside of the sentence, and the
cleaned text `"no yes ."` no longer contains it at all. -/
theorem c5_counterexample :
    limpar_repeticoes
        (("no no no no yes. no no no no yes. no no no no yes.").toList) =
        ("no yes .").toList ∧
      ¬ List.IsInfix (("no no no no yes").toList)
        (limpar_repeticoes
          (("no no no no yes. no no no no yes. no no no no yes.").toList)) := by
  decide

/-- Claim C5 (amended): the sentence-level stage
`_remover_repeticoes_sentencas` collapses every maximal consecutive run
of sentences with equal normalization to exactly its first occurrence
(second and later consecutive duplicates are dropped); end to end this
holds only for sentences the preceding word-pattern stage leaves
intact, since that stage may rewrite a sentence containing internal
word repetitions. -/
theorem c5_amended (l : List (List Char)) :
    removerRepeticoesSentencas l = colapsarRunsSpec l := by
  have aux : ∀ (l : List (List Char)) (prev : List Char) (c : ℕ), 1 ≤ c →
      removerRepAux (some prev) c l = colapsarAux prev l := by
    intro l
    induction l with
    | nil => intro prev c _; rfl
    | cons s rest ih =>
      intro prev c hc
      by_cases h : normalizarSentenca s = prev
      · have hc1 : ¬ (c + 1 ≤ 1) := by omega
        simp [removerRepAux, colapsarAux, h, hc1, ih prev (c + 1) (by omega)]
      · simp [removerRepAux, colapsarAux, h, ih (normalizarSentenca s) 1 le_rfl]
  cases l with
  | nil => rfl
  | cons s rest =>
    simp [removerRepeticoesSentencas, colapsarRunsSpec, removerRepAux,
      aux rest (normalizarSentenca s) 1 le_rfl]

/-- Claim C6: after a two-pass decode, the reconciliation keeps the
isolated pass's text whenever the contextual text is flagged repetitive
or the isolated text is under 70% of the contextual text's length. -/
theorem c6_reconciliacao (t1 t2 : List Char)
    (h : 10 * t2.length < 7 * t1.length ∨ detectar_anomalia_repeticao t1 = true) :
    reconciliar t1 t2 = t2 := by
  rcases h with h | h <;> simp [reconciliar, escolhePassada2, h]

/-- Witness for C6 at the spec's concrete scenario: pass 1 text
`"word word word word word"`, pass 2 text `"hello world"` — pass 2 is
selected (via the 70%-length disjunct: 110 < 168). -/
theorem c6_witness :
    10 * ((("hello world").toList).length) <
        7 * ((("word word word word word").toList).length) ∧
      reconciliar (("word word word word word").toList) (("hello world").toList) =
        ("hello world").toList :=
  ⟨by decide, c6_reconciliacao _ _ (Or.inl (by decide))⟩

/-- Claim C9: inputs shorter than 50 characters or with fewer than 10
whitespace words are never flagged by the repetition detector, whatever
their content, and conditional cleaning leaves them unchanged. -/
theorem c9_detector_minimos (t : List Char)
    (h : t.length < 50 ∨ (splitWs t).length < 10) :
    detectar_anomalia_repeticao t = false ∧ aplicar_limpeza_condicional t = t := by
  have hd : detectar_anomalia_repeticao t = false := by
    unfold detectar_anomalia_repeticao
    rcases h with h | h
    · simp [h]
    · by_cases h50 : t.length < 50
      · simp [h50]
      · simp [h50, h]
  exact ⟨hd, by simp [aplicar_limpeza_condicional, hd]⟩

/-- Witness for C9 at the concrete repetitive 5-word input
`"a a a a a"`. -/
theorem c9_witness :
    ((("a a a a a").toList).length < 50 ∨
        (splitWs (("a a a a a").toList)).length < 10) ∧
      detectar_anomalia_repeticao (("a a a a a").toList) = false ∧
      aplicar_limpeza_condicional (("a a a a a").toList) = ("a a a a a").toList :=
  ⟨Or.inl (by decide), c9_detector_minimos (("a a a a a").toList) (Or.inl (by decide))⟩

/-- Claim C10: when every segment fails the post-decode filter, the
result text is left unchanged; the text is rebuilt from surviving
segments exactly when at least one passes. -/
theorem c10_filtro_segmentos (r : Resultado) (segs : List Segmento)
    (h : r.segments = some segs) :
    (segs.filter segmentoValido = [] → (filtrar_segmentos r).text = r.text) ∧
      (segs.filter segmentoValido ≠ [] →
        (filtrar_segmentos r).text =
          joinWords ((segs.filter segmentoValido).map (fun s => pyStrip s.text))) := by
  constructor <;> intro hv <;> simp [filtrar_segmentos, h, hv]

/-- Witness for C10 at a concrete result whose only segment fails every
threshold: the text field survives unchanged. -/
theorem c10_witness :
    resRuim.segments = some [segRuim] ∧
      [segRuim].filter segmentoValido = [] ∧
      (filtrar_segmentos resRuim).text = resRuim.text := by
  have hs : segmentoValido segRuim = false := by
    simp [segmentoValido, segRuim]
    norm_num
  have hf : [segRuim].filter segmentoValido = [] := by
    simp [List.filter, hs]
  exact ⟨rfl, hf, (c10_filtro_segmentos resRuim [segRuim] rfl).1 hf⟩

/-- Helper: the translation loop equals a per-chunk map over the
non-blank chunks, substituting the original chunk on oracle failure. -/
theorem traduzirPartes_eq_map (tr : List Char → Option (List Char))
    (cs : List (List Char)) :
    traduzirPartes tr cs =
      (cs.filter (fun c => decide (pyStrip c ≠ []))).map (fun c => (tr c).getD c) := by
  induction cs with
  | nil => rfl
  | cons c cs ih =>
    by_cases hc : pyStrip c = []
    · simp [traduzirPartes, hc, ih]
    · cases htr : tr c <;> simp [traduzirPartes, hc, htr, ih]

/-- Claim C8: during translation, a failing oracle call on one chunk
substitutes that chunk's original text at its position and the
remaining chunks are still translated — the output has one entry per
non-blank chunk, and the failing chunk's entry is its original text. -/
theorem c8_falha_de_chunk (tr : List Char → Option (List Char)) (text : List Char)
    (i : ℕ)
    (h : i < ((montarChunks text).filter (fun c => decide (pyStrip c ≠ []))).length)
    (hfail : tr (((montarChunks text).filter (fun c => decide (pyStrip c ≠ []))).get ⟨i, h⟩) = none) :
    (traduzirPartes tr (montarChunks text)).length =
        ((montarChunks text).filter (fun c => decide (pyStrip c ≠ []))).length ∧
      (traduzirPartes tr (montarChunks text)).get? i =
        some (((montarChunks text).filter (fun c => decide (pyStrip c ≠ []))).get ⟨i, h⟩) := by
  constructor
  · rw [traduzirPartes_eq_map]
    simp
  · rw [traduzirPartes_eq_map, List.get?_map, List.get?_eq_get h,
      Option.map_some', hfail, Option.getD_none]

/-- Witness for C8: a single-chunk text whose translation call always
fails still yields a full-length output. -/
theorem c8_witness :
    (traduzirPartes (fun _ => none) (montarChunks (("Hello there. World.").toList))).length =
      ((montarChunks (("Hello there. World.").toList)).filter
        (fun c => decide (pyStrip c ≠ []))).length := by
  have h : 0 < ((montarChunks (("Hello there. World.").toList)).filter
      (fun c => decide (pyStrip c ≠ []))).length := by decide
  exact (c8_falha_de_chunk (fun _ => none) (("Hello there. World.").toList) 0 h rfl).1

/-- Helper: the index-keyed results table is a pure function of the set
of completed indices — writing in any order yields, at index `j`, the
result for `j` as soon as `j` completed. -/
theorem fillTable_eq (res : ℕ → List Char) (ordem : List ℕ)
    (tbl : ℕ → Option (List Char)) (j : ℕ) :
    fillTable res ordem tbl j = if j ∈ ordem then some (res j) else tbl j := by
  induction ordem generalizing tbl with
  | nil => simp [fillTable]
  | cons i rest ih =>
    show fillTable res rest _ j = _
    rw [ih]
    by_cases hr : j ∈ rest
    · simp [hr]
    · by_cases hj : j = i
      · subst hj
        simp [hr]
      · simp [hr, hj]

/-- Helper: for a positive duration the code's chunk count
`int(d/cd) + (1 if d % cd > 0 else 0)` is exactly `ceil(d/cd)`. -/
theorem num_chunks_eq_ceil (d : ℚ) (hd : 0 < d) (cd : ℕ) (hcd : 0 < cd) :
    num_chunks d cd = (⌈d / (cd : ℚ)⌉).toNat := by
  have hcdQ : (0 : ℚ) < (cd : ℚ) := by exact_mod_cast hcd
  have hq0 : 0 < d / (cd : ℚ) := div_pos hd hcdQ
  have hfl0 : 0 ≤ ⌊d / (cd : ℚ)⌋ := Int.floor_nonneg.mpr hq0.le
  have hmod : pyModQ d (cd : ℚ) =
      (cd : ℚ) * (d / (cd : ℚ) - (⌊d / (cd : ℚ)⌋ : ℚ)) := by
    unfold pyModQ
    have hne : (cd : ℚ) ≠ 0 := ne_of_gt hcdQ
    field_simp
  have hfr : 0 ≤ d / (cd : ℚ) - (⌊d / (cd : ℚ)⌋ : ℚ) := by
    have := Int.floor_le (d / (cd : ℚ))
    linarith
  by_cases hz : d / (cd : ℚ) - (⌊d / (cd : ℚ)⌋ : ℚ) = 0
  · have hqz : d / (cd : ℚ) = ((⌊d / (cd : ℚ)⌋ : ℤ) : ℚ) := by linarith
    have hceil : ⌈d / (cd : ℚ)⌉ = ⌊d / (cd : ℚ)⌋ := by
      conv_lhs => rw [hqz]
      rw [Int.ceil_intCast]
    have hmz : ¬ (0 < pyModQ d (cd : ℚ)) := by
      rw [hmod, hz]
      simp
    unfold num_chunks
    simp [hmz, hceil]
  · have hpos : 0 < d / (cd : ℚ) - (⌊d / (cd : ℚ)⌋ : ℚ) :=
      lt_of_le_of_ne hfr (Ne.symm hz)
    have hmz : 0 < pyModQ d (cd : ℚ) := by
      rw [hmod]
      positivity
    have hceil : ⌈d / (cd : ℚ)⌉ = ⌊d / (cd : ℚ)⌋ + 1 := by
      have h1 : ⌈d / (cd : ℚ)⌉ ≤ ⌊d / (cd : ℚ)⌋ + 1 := Int.ceil_le_floor_add_one _
      have h2 : (⌊d / (cd : ℚ)⌋ : ℚ) < d / (cd : ℚ) := by linarith
      have h3 : ⌊d / (cd : ℚ)⌋ < ⌈d / (cd : ℚ)⌉ := by
        have h4 := Int.le_ceil (d / (cd : ℚ))
        have h5 : (⌊d / (cd : ℚ)⌋ : ℚ) < (⌈d / (cd : ℚ)⌉ : ℚ) := lt_of_lt_of_le h2 h4
        exact_mod_cast h5
      omega
    unfold num_chunks
    rw [hceil]
    simp only [hmz, if_pos]
    omega

/-- Claim C2: for a measured duration over 600 seconds the
(spec-modelled) pipeline enters segmentation; the file is split into
`ceil(d/600)` fixed 600-second units; every unit is decoded with the
"isolated" options only; and the final text joins the unit texts in
unit-index order, whatever the completion order of the chunk workers. -/
theorem c2_pipeline_segmentado (decode : AudioUnit → OpcoesDecodificacao → List Char)
    (semSeg : List Char) (d : ℚ) (ordem : List ℕ)
    (hd : 600 < d) (hperm : ordem.Perm (List.range (num_chunks d 600))) :
    pipelineTranscrever decode semSeg d ordem =
        joinWords ((segmentarAudio d).map (fun u => decode u opcoesIsolada)) ∧
      (segmentarAudio d).length = num_chunks d 600 ∧
      num_chunks d 600 = (⌈d / ((600 : ℕ) : ℚ)⌉).toNat := by
  have hlen : (segmentarAudio d).length = num_chunks d 600 := by
    simp [segmentarAudio]
  refine ⟨?_, hlen, num_chunks_eq_ceil d (by linarith) 600 (by norm_num)⟩
  unfold pipelineTranscrever
  rw [if_pos hd]
  simp only [transcreverSegmentado]
  rw [hlen]
  conv_rhs => rw [segmentarAudio, List.map_map]
  congr 1
  apply List.map_congr_left
  intro i hi
  have hio : i ∈ ordem := hperm.mem_iff.mpr hi
  rw [fillTable_eq]
  have hget : (segmentarAudio d).get? i =
      some (AudioUnit.mk (600 * (i : ℚ)) (min 600 (d - 600 * (i : ℚ))) i) := by
    rw [segmentarAudio, List.get?_map, List.get?_range (List.mem_range.mp hi),
      Option.map_some']
  rw [List.get?_eq_getElem?] at hget
  simp [hio, hget]

/-- Helper: a 1500-second file has 3 chunks of 600 seconds. -/
theorem num_chunks_1500 : num_chunks 1500 600 = 3 := by
  unfold num_chunks pyModQ
  have hf : (Int.floor ((1500 : ℚ) / ((600 : ℕ) : ℚ))) = 2 := by
    rw [Int.floor_eq_iff]
    constructor <;> norm_num
  rw [hf]
  norm_num
  rfl

/-- Witness for C2 at the spec's end-to-end scenario: a 1500-second
file yields 3 units, and with completion order `[2, 0, 1]` the merged
text still equals the index-ordered join. -/
theorem c2_witness :
    (600 : ℚ) < 1500 ∧
      pipelineTranscrever (fun u _ => natDigits u.index) (("x").toList) 1500 [2, 0, 1] =
        joinWords ((segmentarAudio 1500).map
          (fun u => (fun (u : AudioUnit) (_ : OpcoesDecodificacao) => natDigits u.index)
            u opcoesIsolada)) := by
  have hperm : ([2, 0, 1] : List ℕ).Perm (List.range (num_chunks 1500 600)) := by
    rw [num_chunks_1500]
    decide
  exact ⟨by norm_num,
    (c2_pipeline_segmentado (fun u _ => natDigits u.index) (("x").toList) 1500 [2, 0, 1]
      (by norm_num) hperm).1⟩

/-- Helper: code of a decimal digit character. -/
theorem digitChar_toNat (d : ℕ) (h : d < 10) : (digitChar d).toNat = 48 + d := by
  interval_cases d <;> rfl

/-- Helper: one-digit numbers render as a single digit. -/
theorem natDigitsAux_lt10 (fuel n : ℕ) (acc : List Char) (h : n < 10) :
    natDigitsAux (fuel + 1) n acc = digitChar n :: acc := by
  simp [natDigitsAux, h]

/-- Helper: the division step of the digit rendering. -/
theorem natDigitsAux_ge10 (fuel n : ℕ) (acc : List Char) (h : ¬ n < 10) :
    natDigitsAux (fuel + 1) n acc =
      natDigitsAux fuel (n / 10) (digitChar (n % 10) :: acc) := by
  simp [natDigitsAux, h]

/-- Helper: decimal rendering of numbers below 10. -/
theorem natDigits_lt10 (n : ℕ) (h : n < 10) : natDigits n = [digitChar n] := by
  unfold natDigits
  rw [natDigitsAux_lt10 n n [] h]

/-- Helper: decimal rendering of two-digit numbers. -/
theorem natDigits_10_100 (n : ℕ) (h1 : 10 ≤ n) (h2 : n < 100) :
    natDigits n = [digitChar (n / 10), digitChar (n % 10)] := by
  unfold natDigits
  rw [natDigitsAux_ge10 n n [] (by omega)]
  obtain ⟨m, hm⟩ : ∃ m, n = m + 1 := ⟨n - 1, by omega⟩
  subst hm
  rw [natDigitsAux_lt10 m ((m + 1) / 10) _ (by omega)]

/-- Helper: decimal rendering of three-digit numbers. -/
theorem natDigits_100_1000 (n : ℕ) (h1 : 100 ≤ n) (h2 : n < 1000) :
    natDigits n = [digitChar (n / 100), digitChar (n / 10 % 10), digitChar (n % 10)] := by
  unfold natDigits
  rw [natDigitsAux_ge10 n n [] (by omega)]
  obtain ⟨m, hm⟩ : ∃ m, n = m + 1 := ⟨n - 1, by omega⟩
  subst hm
  rw [natDigitsAux_ge10 m ((m + 1) / 10) _ (by omega)]
  obtain ⟨k, hk⟩ : ∃ k, m = k + 1 := ⟨m - 1, by omega⟩
  subst hk
  rw [natDigitsAux_lt10 k ((k + 1 + 1) / 10 / 10) _ (by omega)]
  have e : (k + 1 + 1) / 10 / 10 = (k + 1 + 1) / 100 := by
    rw [Nat.div_div_eq_div_mul]
  rw [e]

/-- Helper: explicit three-character form of the `{i:03d}` padding for
indices below 1000. -/
theorem pad3_eq (i : ℕ) (h : i < 1000) :
    pad3 i = [digitChar (i / 100), digitChar (i / 10 % 10), digitChar (i % 10)] := by
  rcases lt_or_ge i 10 with h1 | h1
  · rw [pad3, natDigits_lt10 i h1]
    have e0 : i / 100 = 0 := by omega
    have e1 : i / 10 % 10 = 0 := by omega
    have e2 : i % 10 = i := by omega
    rw [e0, e1, e2]
    rfl
  · rcases lt_or_ge i 100 with h2 | h2
    · rw [pad3, natDigits_10_100 i h1 h2]
      have e0 : i / 100 = 0 := by omega
      have e1 : i / 10 % 10 = i / 10 := by omega
      rw [e0, e1]
      rfl
    · rw [pad3, natDigits_100_1000 i h2 h]
      rfl

/-- Helper: lexicographic comparison of equal-length three-digit
strings agrees with the numeric comparison. -/
theorem lexLt_digits (a2 a1 a0 b2 b1 b0 : ℕ)
    (ha2 : a2 < 10) (ha1 : a1 < 10) (ha0 : a0 < 10)
    (hb2 : b2 < 10) (hb1 : b1 < 10) (hb0 : b0 < 10)
    (h : a2 * 100 + a1 * 10 + a0 < b2 * 100 + b1 * 10 + b0) :
    lexLt [digitChar a2, digitChar a1, digitChar a0]
      [digitChar b2, digitChar b1, digitChar b0] = true := by
  simp only [lexLt, digitChar_toNat a2 ha2, digitChar_toNat a1 ha1,
    digitChar_toNat a0 ha0, digitChar_toNat b2 hb2, digitChar_toNat b1 hb1,
    digitChar_toNat b0 hb0]
  split_ifs <;> first | rfl | omega

/-- Helper: a common prefix does not affect the comparison. -/
theorem lexLt_append_left (p a b : List Char) :
    lexLt (p ++ a) (p ++ b) = lexLt a b := by
  induction p with
  | nil => rfl
  | cons c p ih => simp [lexLt, ih]

/-- Helper: a strict comparison of equal-length prefixes decides the
comparison whatever follows. -/
theorem lexLt_append_right (a b s t : List Char) (hlen : a.length = b.length)
    (h : lexLt a b = true) : lexLt (a ++ s) (b ++ t) = true := by
  induction a generalizing b with
  | nil =>
    cases b with
    | nil => simp [lexLt] at h
    | cons y ys => simp at hlen
  | cons x xs ih =>
    cases b with
    | nil => simp at hlen
    | cons y ys =>
      simp only [List.cons_append, lexLt]
      simp only [lexLt] at h
      by_cases h1 : x.toNat < y.toNat
      · simp [h1]
      · by_cases h2 : y.toNat < x.toNat
        · rw [if_neg h1, if_pos h2] at h
          exact absurd h (by simp)
        · rw [if_neg h1, if_neg h2] at h
          rw [if_neg h1, if_neg h2]
          exact ih ys (by simpa using hlen) h

/-- Helper: chunk names are lexicographically increasing in the index
as long as the index stays below 1000 (three digits). -/
theorem lexLt_chunkName (rid ext : List Char) (i j : ℕ) (hij : i < j) (hj : j < 1000) :
    lexLt (chunkName rid ext i) (chunkName rid ext j) = true := by
  have hi : i < 1000 := lt_trans hij hj
  unfold chunkName
  rw [List.append_assoc (rid ++ ("_chunk_").toList) (pad3 i) ext,
    List.append_assoc (rid ++ ("_chunk_").toList) (pad3 j) ext,
    lexLt_append_left]
  have hlen : (pad3 i).length = (pad3 j).length := by
    rw [pad3_eq i hi, pad3_eq j hj]
    rfl
  apply lexLt_append_right _ _ _ _ hlen
  rw [pad3_eq i hi, pad3_eq j hj]
  apply lexLt_digits <;> omega

/-- Claim C7 (amended): on the success path, for positive duration `d`,
`split_audio_into_chunks` produces exactly `ceil(d/600)` chunk paths,
the `i`-th extraction starting at offset `i*600` with the `i`-th name,
and — provided the file needs at most 1000 chunks, so that the
three-digit padding suffices — the returned names are strictly
lexicographically increasing, i.e. lexical order equals chronological
(index) order. -/
theorem c7_chunks (rid ext : List Char) (d : ℚ) (hd : 0 < d)
    (hn : num_chunks d 600 ≤ 1000) :
    (split_audio_into_chunks rid ext d 600).length = (⌈d / ((600 : ℕ) : ℚ)⌉).toNat ∧
      (∀ i, i < num_chunks d 600 →
        (chunk_specs rid ext d 600).get? i = some (i * 600, chunkName rid ext i)) ∧
      (split_audio_into_chunks rid ext d 600).Pairwise
        (fun a b => lexLt a b = true) := by
  refine ⟨?_, ?_, ?_⟩
  · simp [split_audio_into_chunks, chunk_specs,
      num_chunks_eq_ceil d hd 600 (by norm_num)]
  · intro i hi
    rw [chunk_specs, List.get?_map, List.get?_range hi, Option.map_some']
  · unfold split_audio_into_chunks chunk_specs
    rw [List.map_map]
    rw [List.pairwise_map]
    have base : (List.range (num_chunks d 600)).Pairwise (· < ·) :=
      List.pairwise_lt_range _
    refine base.imp_of_mem ?_
    intro a b ha hb hab
    exact lexLt_chunkName rid ext a b hab
      (lt_of_lt_of_le (List.mem_range.mp hb) hn)

/-- Claim C7 — counterexample.  For a duration of 600600 seconds the
split produces 1001 chunks; chunk 1000's name has a four-digit index
and sorts lexicographically before chunk 999's name, so the returned
list is not in lexical order and "zero-padded three-digit index" fails. -/
theorem c7_counterexample :
    num_chunks 600600 600 = 1001 ∧
      (split_audio_into_chunks [] ((".mp3").toList) 600600 600).get? 999 =
        some (chunkName [] ((".mp3").toList) 999) ∧
      (split_audio_into_chunks [] ((".mp3").toList) 600600 600).get? 1000 =
        some (chunkName [] ((".mp3").toList) 1000) ∧
      lexLt (chunkName [] ((".mp3").toList) 1000)
        (chunkName [] ((".mp3").toList) 999) = true ∧
      (pad3 1000).length = 4 := by
  have h1001 : num_chunks 600600 600 = 1001 := by
    unfold num_chunks pyModQ
    have hf : (Int.floor ((600600 : ℚ) / ((600 : ℕ) : ℚ))) = 1001 := by
      rw [Int.floor_eq_iff]
      constructor <;> norm_num
    rw [hf]
    norm_num
    rfl
  refine ⟨h1001, ?_, ?_, by decide, by decide⟩
  · rw [split_audio_into_chunks, chunk_specs, List.map_map, List.get?_map, h1001,
      List.get?_range (by norm_num), Option.map_some']
    rfl
  · rw [split_audio_into_chunks, chunk_specs, List.map_map, List.get?_map, h1001,
      List.get?_range (by norm_num), Option.map_some']
    rfl

/-- Witness for the amended C7 at a 1500-second file: 3 chunks,
per-index starts and names, lexically sorted. -/
theorem c7_witness :
    (split_audio_into_chunks (("r").toList) ((".mp3").toList) 1500 600).length =
        (⌈(1500 : ℚ) / ((600 : ℕ) : ℚ)⌉).toNat ∧
      (split_audio_into_chunks (("r").toList) ((".mp3").toList) 1500 600).Pairwise
        (fun a b => lexLt a b = true) := by
  have h := c7_chunks (("r").toList) ((".mp3").toList) 1500 (by norm_num)
    (by rw [num_chunks_1500]; omega)
  exact ⟨h.1, h.2.2⟩

/-! ### Toolbox for C4: words, joins and strips

The length claim C4 is proved through a normal-form invariant: every
output of `limpar_repeticoes` is a single-space join of words, each of
which is either pure sentence punctuation or punctuation-free
(`Normalizado`), and on such texts the cleaner never increases the
length. -/

/-- Helper: every word produced by `splitWs` is nonempty and
whitespace-free. -/
theorem splitWsAux_boa (s : List Char) :
    ∀ (acc : List Char), (∀ c ∈ acc, isSpace c = false) →
      ∀ w ∈ splitWsAux acc s, palavraBoa w := by
  induction s with
  | nil =>
    intro acc hacc w hw
    by_cases h : acc = []
    · simp [splitWsAux, h] at hw
    · simp only [splitWsAux, if_neg h, List.mem_singleton] at hw
      subst hw
      refine ⟨by simpa using h, ?_⟩
      intro c hc
      exact hacc c (List.mem_reverse.mp hc)
  | cons c rest ih =>
    intro acc hacc w hw
    by_cases hc : isSpace c = true
    · by_cases h : acc = []
      · simp only [splitWsAux, hc, if_pos, h, if_pos] at hw
        exact ih [] (by simp) w hw
      · simp only [splitWsAux, hc, if_pos, if_neg h, List.mem_cons] at hw
        rcases hw with hw | hw
        · subst hw
          refine ⟨by simpa using h, ?_⟩
          intro x hx
          exact hacc x (List.mem_reverse.mp hx)
        · exact ih [] (by simp) w hw
    · simp only [splitWsAux, hc, if_neg, Bool.false_eq_true, if_false] at hw
      refine ih (c :: acc) ?_ w hw
      intro x hx
      rcases List.mem_cons.mp hx with hx | hx
      · subst hx
        simpa using hc
      · exact hacc x hx

/-- Helper: words of `splitWs` are good. -/
theorem splitWs_boa (t : List Char) : ∀ w ∈ splitWs t, palavraBoa w :=
  splitWsAux_boa t [] (by simp)

/-- Helper: unfolding of `joinWords` on a cons. -/
theorem joinWords_cons (w : List Char) (ws : List (List Char)) :
    joinWords (w :: ws) = w ++ (if ws = [] then [] else ' ' :: joinWords ws) := by
  cases ws with
  | nil => simp [joinWords]
  | cons v ws => simp [joinWords]

/-- Helper: `joinWords` over an append of nonempty lists. -/
theorem joinWords_append (a b : List (List Char)) (ha : a ≠ []) (hb : b ≠ []) :
    joinWords (a ++ b) = joinWords a ++ ' ' :: joinWords b := by
  induction a with
  | nil => exact absurd rfl ha
  | cons w a ih =>
    cases a with
    | nil =>
      cases b with
      | nil => exact absurd rfl hb
      | cons v b => simp [joinWords]
    | cons u a2 =>
      have step := ih (by simp)
      show w ++ ' ' :: joinWords ((u :: a2) ++ b) =
        (w ++ ' ' :: joinWords (u :: a2)) ++ ' ' :: joinWords b
      rw [step]
      simp

/-- Helper: `splitWsAux` walks through whitespace-free characters by
accumulating them. -/
theorem splitWsAux_word (w : List Char) (hw : ∀ c ∈ w, isSpace c = false) :
    ∀ (acc s : List Char), splitWsAux acc (w ++ s) = splitWsAux (w.reverse ++ acc) s := by
  induction w with
  | nil => intro acc s; simp
  | cons c w ih =>
    intro acc s
    have hc : isSpace c = false := hw c (by simp)
    have hw2 : ∀ x ∈ w, isSpace x = false := fun x hx => hw x (by simp [hx])
    simp only [List.cons_append, splitWsAux, hc, Bool.false_eq_true, if_false]
    show splitWsAux (c :: acc) (w ++ s) = _
    rw [ih hw2 (c :: acc) s]
    simp

/-- Helper: splitting a single-space join of good words recovers the
words (`str.split` is a retraction of `" ".join` on word lists). -/
theorem splitWs_joinWords (ws : List (List Char)) (h : ∀ w ∈ ws, palavraBoa w) :
    splitWs (joinWords ws) = ws := by
  induction ws with
  | nil => rfl
  | cons w ws ih =>
    have hw := h w (by simp)
    have hws : ∀ v ∈ ws, palavraBoa v := fun v hv => h v (by simp [hv])
    cases ws with
    | nil =>
      show splitWsAux [] (joinWords [w]) = [w]
      have : joinWords [w] = w ++ [] := by simp [joinWords]
      rw [this, splitWsAux_word w hw.2 [] []]
      simp [splitWsAux, hw.1]
    | cons v ws2 =>
      show splitWsAux [] (joinWords (w :: v :: ws2)) = w :: v :: ws2
      have hj : joinWords (w :: v :: ws2) = w ++ ' ' :: joinWords (v :: ws2) := rfl
      rw [hj, splitWsAux_word w hw.2 [] (' ' :: joinWords (v :: ws2))]
      have hsp : isSpace ' ' = true := rfl
      have hne : w.reverse ++ [] ≠ [] := by simpa using hw.1
      simp only [splitWsAux, hsp, if_pos, if_neg hne]
      have ihr : splitWsAux [] (joinWords (v :: ws2)) = v :: ws2 := ih hws
      rw [ihr]
      simp

/-- Helper: stripping a whitespace-free list is the identity. -/
theorem pyStrip_of_nonspace (x : List Char) (h : ∀ c ∈ x, isSpace c = false) :
    pyStrip x = x := by
  have hd : x.dropWhile isSpace = x := by
    cases x with
    | nil => rfl
    | cons c r => simp [List.dropWhile_cons, h c (by simp)]
  have hr : (x.reverse.dropWhile isSpace) = x.reverse := by
    cases hx : x.reverse with
    | nil => rfl
    | cons c r =>
      have hc : c ∈ x := by
        have : c ∈ x.reverse := by rw [hx]; simp
        simpa using this
      simp [List.dropWhile_cons, h c hc]
  unfold pyStrip rstrip
  rw [hd, hr, List.reverse_reverse]

/-- Helper: a leading space disappears under strip. -/
theorem pyStrip_cons_space (c : Char) (s : List Char) (h : isSpace c = true) :
    pyStrip (c :: s) = pyStrip s := by
  unfold pyStrip
  rw [List.dropWhile_cons, if_pos h]

/-- Helper: right strip of an append. -/
theorem rstrip_append (a b : List Char) :
    rstrip (a ++ b) = if rstrip b = [] then rstrip a else a ++ rstrip b := by
  unfold rstrip
  rw [List.reverse_append, List.dropWhile_append]
  by_cases hb : (b.reverse.dropWhile isSpace).isEmpty
  · rw [if_pos hb]
    have : (b.reverse.dropWhile isSpace).reverse = [] := by
      rw [List.isEmpty_iff] at hb
      rw [hb]
      rfl
    rw [if_pos this]
  · rw [if_neg hb]
    have hne : (b.reverse.dropWhile isSpace).reverse ≠ [] := by
      rw [List.isEmpty_iff] at hb
      simpa using hb
    rw [if_neg hne, List.reverse_append, List.reverse_reverse]

/-- Helper: right strip of a whitespace-free list is the identity. -/
theorem rstrip_of_nonspace (x : List Char) (h : ∀ c ∈ x, isSpace c = false) :
    rstrip x = x := by
  have := pyStrip_of_nonspace x h
  unfold pyStrip at this
  have hd : x.dropWhile isSpace = x := by
    cases x with
    | nil => rfl
    | cons c r => simp [List.dropWhile_cons, h c (by simp)]
  rw [hd] at this
  exact this

/-- Helper: a collapsed text in "just saw a space" mode never starts
with a space. -/
theorem collapse_true_dropWhile (s : List Char) :
    (collapseWsAux true s).dropWhile isSpace = collapseWsAux true s := by
  induction s with
  | nil => rfl
  | cons c r ih =>
    by_cases hc : isSpace c = true
    · simp only [collapseWsAux, hc, if_pos]
      exact ih
    · simp only [collapseWsAux, hc, Bool.false_eq_true, if_false]
      rw [List.dropWhile_cons, if_neg (by simp [hc])]

/-- Helper: the two collapse modes agree after stripping (they differ
at most in one leading space). -/
theorem collapse_false_space (c : Char) (r : List Char) (h : isSpace c = true) :
    collapseWsAux false (c :: r) = ' ' :: collapseWsAux true r := by
  simp [collapseWsAux, h]

/-- Helper: collapsing in the two start modes agrees after stripping. -/
theorem pyStrip_collapse_modes (s : List Char) :
    pyStrip (collapseWsAux false s) = pyStrip (collapseWsAux true s) := by
  cases s with
  | nil => rfl
  | cons c r =>
    by_cases hc : isSpace c = true
    · rw [collapse_false_space c r hc, pyStrip_cons_space ' ' _ rfl]
      simp [collapseWsAux, hc]
    · simp only [collapseWsAux, hc, Bool.false_eq_true, if_false]

/-- Helper: a nonempty word list of nonempty words joins to a nonempty
text. -/
theorem joinWords_eq_nil_iff (ws : List (List Char)) (h : ∀ w ∈ ws, w ≠ []) :
    joinWords ws = [] ↔ ws = [] := by
  cases ws with
  | nil => simp [joinWords]
  | cons w ws =>
    cases ws with
    | nil =>
      simp only [joinWords]
      have := h w (by simp)
      simp [this]
    | cons v ws2 =>
      simp only [joinWords]
      constructor
      · intro he
        exact absurd he (by simp [h w (by simp)])
      · intro he
        exact absurd he (by simp)

/-- Helper: the normal-form engine — stripping a collapsed text with a
pending word accumulator equals the single-space join of the split. -/
theorem pyStrip_collapse_gen (s : List Char) :
    ∀ (acc : List Char), (∀ c ∈ acc, isSpace c = false) →
      pyStrip (acc.reverse ++ collapseWsAux false s) = joinWords (splitWsAux acc s) := by
  induction s with
  | nil =>
    intro acc hacc
    have hrs : ∀ c ∈ acc.reverse, isSpace c = false := by
      intro c hc
      exact hacc c (List.mem_reverse.mp hc)
    simp only [collapseWsAux, List.append_nil]
    rw [pyStrip_of_nonspace _ hrs]
    by_cases h : acc = []
    · simp [splitWsAux, h, joinWords]
    · simp [splitWsAux, h, joinWords]
  | cons c r ih =>
    intro acc hacc
    by_cases hc : isSpace c = true
    · rw [collapse_false_space c r hc]
      by_cases h : acc = []
      · subst h
        simp only [List.reverse_nil, List.nil_append]
        rw [pyStrip_cons_space ' ' _ rfl, ← pyStrip_collapse_modes]
        have ih0 := ih [] (by simp)
        simp only [List.reverse_nil, List.nil_append] at ih0
        rw [ih0]
        simp [splitWsAux, hc]
      · have hA : ∀ x ∈ acc.reverse, isSpace x = false := by
          intro x hx
          exact hacc x (List.mem_reverse.mp hx)
        have hAne : acc.reverse ≠ [] := by simpa using h
        have hdrop : (acc.reverse ++ ' ' :: collapseWsAux true r).dropWhile isSpace =
            acc.reverse ++ ' ' :: collapseWsAux true r := by
          cases hAcase : acc.reverse with
          | nil => exact absurd hAcase hAne
          | cons a as =>
            have ha : isSpace a = false := by
              apply hA
              rw [hAcase]
              simp
            rw [List.cons_append, List.dropWhile_cons, if_neg (by simp [ha])]
        have hB : pyStrip (collapseWsAux true r) = joinWords (splitWsAux [] r) := by
          rw [← pyStrip_collapse_modes]
          have ih0 := ih [] (by simp)
          simpa using ih0
        have hBz : (collapseWsAux true r).dropWhile isSpace = collapseWsAux true r :=
          collapse_true_dropWhile r
        have hBr : rstrip (collapseWsAux true r) = joinWords (splitWsAux [] r) := by
          unfold pyStrip at hB
          rw [hBz] at hB
          exact hB
        unfold pyStrip
        rw [hdrop]
        have hz : (acc.reverse ++ ' ' :: collapseWsAux true r) =
            acc.reverse ++ ([' '] ++ collapseWsAux true r) := by simp
        rw [hz, rstrip_append acc.reverse ([' '] ++ collapseWsAux true r),
          rstrip_append [' '] (collapseWsAux true r)]
        by_cases hBnil : joinWords (splitWsAux [] r) = []
        · have hwords : splitWsAux [] r = [] := by
            have hboa := splitWsAux_boa r [] (by simp)
            exact (joinWords_eq_nil_iff _ (fun w hw => (hboa w hw).1)).mp hBnil
          rw [hBr, hBnil]
          simp only [if_pos, if_neg hAne]
          have he : rstrip [' '] = [] := rfl
          rw [if_pos he, rstrip_of_nonspace _ hA]
          simp [splitWsAux, hc, h, hwords, joinWords]
        · have hwne : splitWsAux [] r ≠ [] := by
            intro hcon
            apply hBnil
            rw [hcon]
            rfl
          rw [hBr]
          have h1 : ([' '] ++ joinWords (splitWsAux [] r)) ≠ [] := by simp
          rw [if_neg hBnil, if_neg h1]
          simp only [splitWsAux, hc, if_pos, if_neg h]
          rw [joinWords_cons _ _ , if_neg hwne]
          simp
    · simp only [collapseWsAux, hc, Bool.false_eq_true, if_false]
      have hacc2 : ∀ x ∈ (c :: acc), isSpace x = false := by
        intro x hx
        rcases List.mem_cons.mp hx with hx | hx
        · subst hx
          simpa using hc
        · exact hacc x hx
      have e : acc.reverse ++ c :: collapseWsAux false r =
          (c :: acc).reverse ++ collapseWsAux false r := by simp
      rw [e, ih (c :: acc) hacc2]
      simp [splitWsAux, hc]

/-- Helper: the cleaner's final normalization
`re.sub(r"\s+", " ", t).strip()` is exactly the single-space join of
the words of `t`. -/
theorem pyStrip_collapse (s : List Char) :
    pyStrip (collapseWs s) = joinWords (splitWs s) := by
  have := pyStrip_collapse_gen s [] (by simp)
  simpa [collapseWs, splitWs] using this

/-- Helper: splitting cuts at an explicit space. -/
theorem splitWsAux_space_cut (x : List Char) :
    ∀ (acc y : List Char),
      splitWsAux acc (x ++ ' ' :: y) = splitWsAux acc (x ++ [' ']) ++ splitWsAux [] y := by
  induction x with
  | nil =>
    intro acc y
    have hsp : isSpace ' ' = true := rfl
    by_cases h : acc = []
    · simp [splitWsAux, h, hsp]
    · simp [splitWsAux, h, hsp]
  | cons c x ih =>
    intro acc y
    by_cases hc : isSpace c = true
    · by_cases h : acc = []
      · simp only [List.cons_append, splitWsAux, hc, if_pos, h]
        exact ih [] y
      · simp only [List.cons_append, splitWsAux, hc, if_pos, if_neg h]
        show acc.reverse :: splitWsAux [] (x ++ ' ' :: y) =
          acc.reverse :: (splitWsAux [] (x ++ [' ']) ++ splitWsAux [] y)
        rw [ih [] y]
    · simp only [List.cons_append, splitWsAux, hc, Bool.false_eq_true, if_false]
      exact ih (c :: acc) y

/-- Helper: a trailing space adds no words. -/
theorem splitWsAux_trailing_space (x : List Char) :
    ∀ (acc : List Char), splitWsAux acc (x ++ [' ']) = splitWsAux acc x := by
  induction x with
  | nil =>
    intro acc
    have hsp : isSpace ' ' = true := rfl
    by_cases h : acc = []
    · simp [splitWsAux, h, hsp]
    · simp [splitWsAux, h, hsp]
  | cons c x ih =>
    intro acc
    by_cases hc : isSpace c = true
    · by_cases h : acc = []
      · simp only [List.cons_append, splitWsAux, hc, if_pos, h, if_pos]
        exact ih []
      · simp only [List.cons_append, splitWsAux, hc, if_pos, if_neg h]
        show acc.reverse :: splitWsAux [] (x ++ [' ']) = acc.reverse :: splitWsAux [] x
        rw [ih []]
    · simp only [List.cons_append, splitWsAux, hc, Bool.false_eq_true, if_false]
      exact ih (c :: acc)

/-- Helper: words of a space-separated concatenation. -/
theorem splitWs_append_space (x y : List Char) :
    splitWs (x ++ ' ' :: y) = splitWs x ++ splitWs y := by
  unfold splitWs
  rw [splitWsAux_space_cut x [] y, splitWsAux_trailing_space x []]

/-- Helper: words of a join are the concatenation of each part's
words. -/
theorem splitWs_joinWords_join (ls : List (List Char)) :
    splitWs (joinWords ls) = (ls.map splitWs).join := by
  induction ls with
  | nil => rfl
  | cons a ls ih =>
    cases ls with
    | nil => simp [joinWords]
    | cons b ls2 =>
      have hj : joinWords (a :: b :: ls2) = a ++ ' ' :: joinWords (b :: ls2) := rfl
      rw [hj, splitWs_append_space, ih]
      simp

/-- Helper: an all-space suffix adds no words. -/
theorem splitWsAux_space_suffix (x : List Char) :
    ∀ (sp acc : List Char), (∀ c ∈ sp, isSpace c = true) →
      splitWsAux acc (x ++ sp) = splitWsAux acc x := by
  induction x with
  | nil =>
    intro sp
    induction sp with
    | nil => intro acc _; rfl
    | cons c sp ihs =>
      intro acc hsp
      have hc : isSpace c = true := hsp c (by simp)
      have hsp2 : ∀ d ∈ sp, isSpace d = true := fun d hd => hsp d (by simp [hd])
      by_cases h : acc = []
      · simp only [List.nil_append, splitWsAux, hc, if_pos, h]
        have := ihs [] hsp2
        simpa using this
      · simp only [List.nil_append, splitWsAux, hc, if_pos, if_neg h]
        have := ihs [] hsp2
        simp only [List.nil_append] at this
        rw [this]
        simp [splitWsAux, h]
  | cons c x ih =>
    intro sp acc hsp
    by_cases hc : isSpace c = true
    · by_cases h : acc = []
      · simp only [List.cons_append, splitWsAux, hc, if_pos, h, if_pos]
        exact ih sp [] hsp
      · simp only [List.cons_append, splitWsAux, hc, if_pos, if_neg h]
        show acc.reverse :: splitWsAux [] (x ++ sp) = acc.reverse :: splitWsAux [] x
        rw [ih sp [] hsp]
    · simp only [List.cons_append, splitWsAux, hc, Bool.false_eq_true, if_false]
      exact ih sp (c :: acc) hsp

/-- Helper: splitting ignores a leading-space drop. -/
theorem splitWs_dropWhile (x : List Char) :
    splitWs (x.dropWhile isSpace) = splitWs x := by
  induction x with
  | nil => rfl
  | cons c x ih =>
    by_cases hc : isSpace c = true
    · rw [List.dropWhile_cons, if_pos hc, ih]
      show splitWs x = splitWsAux [] (c :: x)
      simp [splitWs, splitWsAux, hc]
    · rw [List.dropWhile_cons, if_neg (by simp [hc])]

/-- Helper: splitting ignores the right strip. -/
theorem splitWs_rstrip (x : List Char) : splitWs (rstrip x) = splitWs x := by
  have hdec : x = rstrip x ++ (x.reverse.takeWhile isSpace).reverse := by
    unfold rstrip
    rw [← List.reverse_append, List.takeWhile_append_dropWhile, List.reverse_reverse]
  have hsp : ∀ c ∈ (x.reverse.takeWhile isSpace).reverse, isSpace c = true := by
    intro c hc
    exact List.mem_takeWhile_imp (List.mem_reverse.mp hc)
  conv_rhs => rw [hdec]
  unfold splitWs
  rw [splitWsAux_space_suffix (rstrip x) _ [] hsp]

/-- Helper: splitting ignores the full strip. -/
theorem splitWs_pyStrip (x : List Char) : splitWs (pyStrip x) = splitWs x := by
  unfold pyStrip
  rw [splitWs_rstrip, splitWs_dropWhile]

/-- Helper: the strip is a sublist of the original. -/
theorem pyStrip_sublist (x : List Char) : List.Sublist (pyStrip x) x := by
  unfold pyStrip rstrip
  have h1 : List.Sublist ((x.dropWhile isSpace).reverse.dropWhile isSpace)
      (x.dropWhile isSpace).reverse := List.dropWhile_sublist _
  have h2 := h1.reverse
  simp only [List.reverse_reverse] at h2
  exact h2.trans (List.dropWhile_sublist _)

/-- Helper: strip never lengthens. -/
theorem pyStrip_length_le (x : List Char) : (pyStrip x).length ≤ x.length :=
  (pyStrip_sublist x).length_le

/-- Helper: whitespace collapsing never lengthens. -/
theorem collapseWsAux_length_le (s : List Char) :
    ∀ (prev : Bool), (collapseWsAux prev s).length ≤ s.length := by
  induction s with
  | nil => intro prev; simp [collapseWsAux]
  | cons c r ih =>
    intro prev
    by_cases hc : isSpace c = true
    · cases prev with
      | true =>
        simp only [collapseWsAux, hc, if_pos]
        exact le_trans (ih true) (by simp)
      | false =>
        simp only [collapseWsAux, hc, if_pos]
        simpa using ih true
    · simp only [collapseWsAux, hc, Bool.false_eq_true, if_false]
      simpa using ih false

/-- Helper: every character of a word of `splitWs x` occurs in `x`. -/
theorem splitWsAux_chars (s : List Char) :
    ∀ (acc w : List Char), w ∈ splitWsAux acc s → ∀ c ∈ w, c ∈ acc ∨ c ∈ s := by
  induction s with
  | nil =>
    intro acc w hw c hc
    by_cases h : acc = []
    · simp [splitWsAux, h] at hw
    · simp only [splitWsAux, if_neg h, List.mem_singleton] at hw
      subst hw
      exact Or.inl (List.mem_reverse.mp hc)
  | cons d r ih =>
    intro acc w hw c hc
    by_cases hd : isSpace d = true
    · by_cases h : acc = []
      · simp only [splitWsAux, hd, if_pos, h] at hw
        rcases ih [] w hw c hc with hcon | hcon
        · simp at hcon
        · exact Or.inr (by simp [hcon])
      · simp only [splitWsAux, hd, if_pos, if_neg h, List.mem_cons] at hw
        rcases hw with hw | hw
        · subst hw
          exact Or.inl (List.mem_reverse.mp hc)
        · rcases ih [] w hw c hc with hcon | hcon
          · simp at hcon
          · exact Or.inr (by simp [hcon])
    · simp only [splitWsAux, hd, Bool.false_eq_true, if_false] at hw
      rcases ih (d :: acc) w hw c hc with hcon | hcon
      · rcases List.mem_cons.mp hcon with hcon | hcon
        · exact Or.inr (by simp [hcon])
        · exact Or.inl hcon
      · exact Or.inr (by simp [hcon])

/-- Helper: characters of split words come from the text. -/
theorem splitWs_chars (x w : List Char) (hw : w ∈ splitWs x) :
    ∀ c ∈ w, c ∈ x := by
  intro c hc
  rcases splitWsAux_chars x [] w hw c hc with h | h
  · simp at h
  · exact h

/-- Helper: punctuation characters are not whitespace. -/
theorem punct_nonspace (c : Char) (h : isPunct c = true) : isSpace c = false := by
  unfold isPunct at h
  rcases Bool.or_eq_true_iff.mp h with h1 | h1
  · rcases Bool.or_eq_true_iff.mp h1 with h2 | h2
    · rw [decide_eq_true_iff.mp h2]
      rfl
    · rw [decide_eq_true_iff.mp h2]
      rfl
  · rw [decide_eq_true_iff.mp h1]
    rfl

/-- Helper: a nonempty punctuation-only text splits to itself as a
single word. -/
theorem splitWs_punct_word (p : List Char) (hne : p ≠ [])
    (hp : ∀ c ∈ p, isPunct c = true) : splitWs p = [p] := by
  have hboa : palavraBoa p := ⟨hne, fun c hc => punct_nonspace c (hp c hc)⟩
  have := splitWs_joinWords [p] (by intro w hw; rw [List.mem_singleton.mp hw]; exact hboa)
  simpa [joinWords] using this

/-- Helper: every part produced by `re.split(r"([.!?]+)")` is all
punctuation or punctuation-free. -/
theorem splitPunctAux_chars (s : List Char) :
    ∀ (mode : Bool) (acc : List Char), (∀ c ∈ acc, isPunct c = mode) →
      ∀ p ∈ splitPunctAux mode acc s,
        (∀ c ∈ p, isPunct c = true) ∨ (∀ c ∈ p, isPunct c = false) := by
  induction s with
  | nil =>
    intro mode acc hacc p hp
    cases mode with
    | false =>
      simp only [splitPunctAux, List.mem_singleton] at hp
      subst hp
      exact Or.inr (fun c hc => hacc c (List.mem_reverse.mp hc))
    | true =>
      simp only [splitPunctAux, List.mem_cons, List.mem_singleton] at hp
      rcases hp with hp | hp | hp
      · subst hp
        exact Or.inl (fun c hc => hacc c (List.mem_reverse.mp hc))
      · subst hp
        exact Or.inl (by simp)
      · simp at hp
  | cons c r ih =>
    intro mode acc hacc p hp
    cases mode with
    | false =>
      by_cases hc : isPunct c = true
      · simp only [splitPunctAux, hc, if_pos, List.mem_cons] at hp
        rcases hp with hp | hp
        · subst hp
          exact Or.inr (fun x hx => hacc x (List.mem_reverse.mp hx))
        · exact ih true [c] (by intro x hx; rw [List.mem_singleton.mp hx]; exact hc) p hp
      · simp only [splitPunctAux, hc, Bool.false_eq_true, if_false] at hp
        refine ih false (c :: acc) ?_ p hp
        intro x hx
        rcases List.mem_cons.mp hx with hx | hx
        · subst hx
          simpa using hc
        · exact hacc x hx
    | true =>
      by_cases hc : isPunct c = true
      · simp only [splitPunctAux, hc, if_pos] at hp
        refine ih true (c :: acc) ?_ p hp
        intro x hx
        rcases List.mem_cons.mp hx with hx | hx
        · subst hx
          exact hc
        · exact hacc x hx
      · simp only [splitPunctAux, hc, Bool.false_eq_true, if_false, List.mem_cons] at hp
        rcases hp with hp | hp
        · subst hp
          exact Or.inl (fun x hx => hacc x (List.mem_reverse.mp hx))
        · refine ih false [c] ?_ p hp
          intro x hx
          rw [List.mem_singleton.mp hx]
          simpa using hc

/-- Helper: every sentence rebuilt from homogeneous parts has
homogeneous words (the block structure of cleaned text). -/
theorem reconstruirAux_homog (parts : List (List Char))
    (hp : ∀ p ∈ parts, (∀ c ∈ p, isPunct c = true) ∨ (∀ c ∈ p, isPunct c = false)) :
    ∀ (buffer : List Char), (∀ c ∈ buffer, isPunct c = false) →
      ∀ s ∈ reconstruirAux buffer parts, ∀ w ∈ splitWs s, palavraHomogenea w := by
  induction parts with
  | nil =>
    intro buffer hb s hs w hw
    by_cases h : buffer ≠ [] ∧ 5 < buffer.length
    · simp only [reconstruirAux, if_pos h, List.mem_singleton] at hs
      subst hs
      exact Or.inr (fun c hc => hb c (splitWs_chars s w hw c hc))
    · simp only [reconstruirAux, if_neg h] at hs
      simp at hs
  | cons parte0 rest ih =>
    intro buffer hb s hs w hw
    have hrest : ∀ p ∈ rest,
        (∀ c ∈ p, isPunct c = true) ∨ (∀ c ∈ p, isPunct c = false) :=
      fun p hpm => hp p (by simp [hpm])
    have hsub : ∀ c ∈ pyStrip parte0, c ∈ parte0 :=
      fun c hc => (pyStrip_sublist parte0).subset hc
    by_cases hpe : pyStrip parte0 = []
    · simp only [reconstruirAux, hpe, if_pos] at hs
      exact ih hrest buffer hb s hs w hw
    · by_cases hpp : (pyStrip parte0).any isPunct = true
      · -- punctuation-run part: all its characters are punctuation
        have hall : ∀ c ∈ pyStrip parte0, isPunct c = true := by
          rcases hp parte0 (by simp) with hcase | hcase
          · exact fun c hc => hcase c (hsub c hc)
          · exfalso
            rcases List.any_eq_true.mp hpp with ⟨c, hc, hcp⟩
            rw [hcase c (hsub c hc)] at hcp
            exact absurd hcp (by simp)
        by_cases hbuf : buffer ≠ []
        · simp only [reconstruirAux, hpe, Bool.false_eq_true, if_false, hpp,
            if_pos] at hs
          rw [if_pos hbuf] at hs
          set sentenca := pyStrip (buffer ++ ' ' :: pyStrip parte0) with hsent
          by_cases hlen : 5 < sentenca.length
          · rw [if_pos hlen] at hs
            rcases List.mem_cons.mp hs with hs | hs
            · subst hs
              rw [hsent, splitWs_pyStrip, splitWs_append_space] at hw
              rcases List.mem_append.mp hw with hw | hw
              · exact Or.inr (fun c hc => hb c (splitWs_chars buffer w hw c hc))
              · rw [splitWs_punct_word _ hpe hall] at hw
                rw [List.mem_singleton.mp hw]
                exact Or.inl hall
            · exact ih hrest [] (by simp) s hs w hw
          · rw [if_neg hlen] at hs
            exact ih hrest [] (by simp) s hs w hw
        · simp only [reconstruirAux, hpe, Bool.false_eq_true, if_false, hpp,
            if_pos] at hs
          rw [if_neg hbuf] at hs
          by_cases hlen : 5 < (pyStrip parte0).length
          · rw [if_pos hlen] at hs
            rcases List.mem_cons.mp hs with hs | hs
            · subst hs
              rw [splitWs_punct_word _ hpe hall] at hw
              rw [List.mem_singleton.mp hw]
              exact Or.inl hall
            · exact ih hrest [] (by simp) s hs w hw
          · rw [if_neg hlen] at hs
            exact ih hrest [] (by simp) s hs w hw
      · -- punctuation-free part: it extends the buffer
        have hnone : ∀ c ∈ pyStrip parte0, isPunct c = false := by
          intro c hc
          by_contra hcon
          have : isPunct c = true := by
            cases hcase : isPunct c
            · exact absurd hcase hcon
            · rfl
          exact absurd (List.any_eq_true.mpr ⟨c, hc, this⟩) (by simp [hpp])
        by_cases hbuf : buffer = []
        · simp only [reconstruirAux, hpe, Bool.false_eq_true, if_false, hpp,
            hbuf, if_pos] at hs
          exact ih hrest (pyStrip parte0) hnone s hs w hw
        · simp only [reconstruirAux, hpe, Bool.false_eq_true, if_false, hpp,
            hbuf, if_neg] at hs
          refine ih hrest (pyStrip (buffer ++ ' ' :: pyStrip parte0)) ?_ s hs w hw
          intro c hc
          have hc2 : c ∈ buffer ++ ' ' :: pyStrip parte0 :=
            (pyStrip_sublist _).subset hc
          rcases List.mem_append.mp hc2 with hc2 | hc2
          · exact hb c hc2
          · rcases List.mem_cons.mp hc2 with hc2 | hc2
            · subst hc2
              rfl
            · exact hnone c hc2

/-- Helper: sentence dedup yields a sublist. -/
theorem removerRepAux_sublist (l : List (List Char)) :
    ∀ (u : Option (List Char)) (c : ℕ), List.Sublist (removerRepAux u c l) l := by
  induction l with
  | nil => intro u c; simp [removerRepAux]
  | cons s rest ih =>
    intro u c
    by_cases h : some (normalizarSentenca s) = u
    · by_cases h1 : c + 1 ≤ 1
      · simp only [removerRepAux, h, if_pos, h1]
        exact List.Sublist.cons₂ s (ih u (c + 1))
      · simp only [removerRepAux, h, if_pos, if_neg h1]
        exact List.Sublist.cons s (ih u (c + 1))
    · simp only [removerRepAux, h, if_neg]
      exact List.Sublist.cons₂ s (ih (some (normalizarSentenca s)) 1)

/-- Helper: the cleaner's output is the single-space join of the words
of the joined deduplicated sentences. -/
theorem limpar_eq_join (t : List Char) (ht : t ≠ []) :
    limpar_repeticoes t =
      joinWords (splitWs (joinWords (removerRepeticoesSentencas
        (reconstruirSentencas (removerRepeticoesPadroes t))))) := by
  simp only [limpar_repeticoes, if_neg ht]
  exact pyStrip_collapse _

/-- Helper (Lemma A): every output of `limpar_repeticoes` is in normal
form — a single-space join of words, each pure punctuation or
punctuation-free. -/
theorem limpar_normalizado (t : List Char) : Normalizado (limpar_repeticoes t) := by
  by_cases ht : t = []
  · subst ht
    constructor
    · rfl
    · intro w hw
      simp [limpar_repeticoes, splitWs, splitWsAux] at hw
  · have hshape := limpar_eq_join t ht
    set v := joinWords (removerRepeticoesSentencas
      (reconstruirSentencas (removerRepeticoesPadroes t))) with hv
    have hWu : splitWs (limpar_repeticoes t) = splitWs v := by
      rw [hshape]
      exact splitWs_joinWords (splitWs v) (splitWs_boa v)
    constructor
    · rw [hWu, ← hshape]
    · intro w hw
      rw [hWu] at hw
      rw [hv, splitWs_joinWords_join] at hw
      rcases List.mem_join.mp hw with ⟨wl, hwl, hwmem⟩
      rcases List.mem_map.mp hwl with ⟨s, hsent, hws⟩
      subst hws
      have hs2 : s ∈ reconstruirSentencas (removerRepeticoesPadroes t) :=
        (removerRepAux_sublist _ none 0).subset hsent
      exact reconstruirAux_homog (splitPunct (removerRepeticoesPadroes t))
        (splitPunctAux_chars _ false [] (by simp)) [] (by simp) s hs2 w hwmem

/-- Helper: length of a single-space join. -/
theorem joinWords_length (ws : List (List Char)) :
    (joinWords ws).length = ((ws.map (fun w => w.length + 1)).sum) - 1 := by
  induction ws with
  | nil => rfl
  | cons w ws ih =>
    cases ws with
    | nil => simp [joinWords]
    | cons v ws2 =>
      have he : joinWords (w :: v :: ws2) = w ++ ' ' :: joinWords (v :: ws2) := rfl
      rw [he]
      simp only [List.length_append, List.length_cons, ih, List.map_cons, List.sum_cons]
      have hpos : 1 ≤ v.length + 1 + ((ws2.map (fun w => w.length + 1)).sum) := by omega
      omega

/-- Helper: sums over naturals respect sublists. -/
theorem sum_le_sum_of_sublist (l1 l2 : List ℕ) (h : List.Sublist l1 l2) :
    l1.sum ≤ l2.sum := by
  induction h with
  | slnil => simp
  | @cons l1 l2 a h ih =>
    simp only [List.sum_cons]
    omega
  | @cons₂ l1 l2 a h ih =>
    simp only [List.sum_cons]
    omega

/-- Helper: joining a sublist of words never lengthens the text. -/
theorem joinWords_length_mono (ws1 ws2 : List (List Char))
    (h : List.Sublist ws1 ws2) :
    (joinWords ws1).length ≤ (joinWords ws2).length := by
  rw [joinWords_length, joinWords_length]
  have := sum_le_sum_of_sublist _ _ (h.map (fun w => w.length + 1))
  omega

/-- Helper: the collapse step `palavras[:i+L] + palavras[i+L*reps:]`
keeps a sublist of the word list. -/
theorem take_append_drop_sublist (l : List (List Char)) (m k : ℕ) (h : m ≤ k) :
    List.Sublist (l.take m ++ l.drop k) l := by
  conv_rhs => rw [← List.take_append_drop m l]
  apply List.Sublist.append (List.Sublist.refl _)
  have he : l.drop k = (l.drop m).drop (k - m) := by
    rw [List.drop_drop]
    congr 1
    omega
  rw [he]
  exact List.drop_sublist _ _

/-- Helper: the repetition counter only counts up from its seed. -/
theorem countRepsAux_ge (ws : List (List Char)) (L : ℕ) (key : List Char) :
    ∀ (fuel j reps : ℕ), reps ≤ countRepsAux ws L key fuel j reps := by
  intro fuel
  induction fuel with
  | zero => intro j reps; simp [countRepsAux]
  | succ fuel ih =>
    intro j reps
    by_cases h : j + L ≤ ws.length ∧ patKey (slice ws j L) = key
    · simp only [countRepsAux, if_pos h]
      exact le_trans (by omega) (ih (j + L) (reps + 1))
    · simp only [countRepsAux, if_neg h]
      exact le_rfl

/-- Helper: a successful position scan collapses to a sublist. -/
theorem scanPosAux_sublist (ws : List (List Char)) (L : ℕ) (_hL : 1 ≤ L) :
    ∀ (fuel i : ℕ) (r : List (List Char)),
      scanPosAux ws L fuel i = some r → List.Sublist r ws := by
  intro fuel
  induction fuel with
  | zero => intro i r h; simp [scanPosAux] at h
  | succ fuel ih =>
    intro i r h
    simp only [scanPosAux] at h
    by_cases h1 : i + 2 * L < ws.length
    · rw [if_pos h1] at h
      by_cases h2 : L = 1 ∧ patKey (slice ws i L) ∈ PALAVRAS_IGNORAR
      · rw [if_pos h2] at h
        exact ih (i + 1) r h
      · rw [if_neg h2] at h
        by_cases h3 : limite L < countReps ws L i
        · rw [if_pos h3] at h
          have hr : ws.take (i + L) ++ ws.drop (i + L * countReps ws L i) = r :=
            Option.some.inj h
          subst hr
          apply take_append_drop_sublist
          have hreps : 1 ≤ countReps ws L i := countRepsAux_ge ws L _ _ _ 1
          have : L ≤ L * countReps ws L i := Nat.le_mul_of_pos_right L (by omega)
          omega
        · rw [if_neg h3] at h
          exact ih (i + 1) r h
    · rw [if_neg h1] at h
      simp at h

/-- Helper: a successful length scan collapses to a sublist. -/
theorem scanLsAux_sublist (ws : List (List Char)) :
    ∀ (L : ℕ) (r : List (List Char)), scanLsAux ws L = some r → List.Sublist r ws := by
  intro L
  induction L with
  | zero => intro r h; simp [scanLsAux] at h
  | succ L ih =>
    intro r h
    simp only [scanLsAux] at h
    cases hscan : scanPosAux ws (L + 1) ws.length 0 with
    | some r2 =>
      rw [hscan] at h
      have : r2 = r := Option.some.inj h
      subst this
      exact scanPosAux_sublist ws (L + 1) (by omega) ws.length 0 r2 hscan
    | none =>
      rw [hscan] at h
      exact ih r h

/-- Helper: a removal step keeps a sublist of the words. -/
theorem padroesStep_sublist (ws r : List (List Char)) (h : padroesStep ws = some r) :
    List.Sublist r ws :=
  scanLsAux_sublist ws _ r h

/-- Helper: the bounded removal loop maps a join of good words to the
join of one of its sublists. -/
theorem padroesLoop_join (fuel : ℕ) :
    ∀ (ws : List (List Char)), (∀ w ∈ ws, palavraBoa w) →
      ∃ ws2, List.Sublist ws2 ws ∧ padroesLoop fuel (joinWords ws) = joinWords ws2 := by
  induction fuel with
  | zero => intro ws h; exact ⟨ws, List.Sublist.refl ws, rfl⟩
  | succ fuel ih =>
    intro ws h
    simp only [padroesLoop]
    rw [splitWs_joinWords ws h]
    by_cases hlen : ws.length < 3
    · rw [if_pos hlen]
      exact ⟨ws, List.Sublist.refl ws, rfl⟩
    · rw [if_neg hlen]
      cases hstep : padroesStep ws with
      | none => exact ⟨ws, List.Sublist.refl ws, rfl⟩
      | some ws1 =>
        have hsub := padroesStep_sublist ws ws1 hstep
        have h1 : ∀ w ∈ ws1, palavraBoa w := fun w hw => h w (hsub.subset hw)
        obtain ⟨ws2, hsub2, heq⟩ := ih ws1 h1
        exact ⟨ws2, hsub2.trans hsub, heq⟩

/-- Helper: the pattern-removal stage maps a join of good words to the
join of one of its sublists. -/
theorem padroes_join (ws : List (List Char)) (h : ∀ w ∈ ws, palavraBoa w) :
    ∃ ws2, List.Sublist ws2 ws ∧
      removerRepeticoesPadroes (joinWords ws) = joinWords ws2 := by
  by_cases hz : joinWords ws = []
  · refine ⟨ws, List.Sublist.refl ws, ?_⟩
    simp only [removerRepeticoesPadroes, hz, if_pos]
  · simp only [removerRepeticoesPadroes, if_neg hz]
    exact padroesLoop_join 15 ws h

/-- Helper: concatenation respects sublists of block lists. -/
theorem join_sublist_of_sublist (l1 l2 : List (List (List Char)))
    (h : List.Sublist l1 l2) : List.Sublist l1.join l2.join := by
  induction h with
  | slnil => simp
  | @cons l1 l2 a h ih =>
    simp only [List.join_cons]
    exact ih.trans (List.sublist_append_right _ _)
  | @cons₂ l1 l2 a h ih =>
    simp only [List.join_cons]
    exact List.Sublist.append (List.Sublist.refl a) ih

/-- Helper: the join of a nonempty list of nonempty blocks is nonempty. -/
theorem join_ne_nil (bs : List (List (List Char))) (hbs : bs ≠ [])
    (h : ∀ b ∈ bs, b ≠ []) : bs.join ≠ [] := by
  cases bs with
  | nil => exact absurd rfl hbs
  | cons b bs2 =>
    have hb := h b (by simp)
    simp only [List.join_cons]
    intro hcon
    rw [List.append_eq_nil] at hcon
    exact hb hcon.1

/-- Helper: joining sentence texts block-wise or word-wise agrees. -/
theorem joinWords_map_join (bs : List (List (List Char))) (h : ∀ b ∈ bs, b ≠ []) :
    joinWords (bs.map joinWords) = joinWords bs.join := by
  induction bs with
  | nil => rfl
  | cons b bs ih =>
    by_cases hbs : bs = []
    · subst hbs
      simp [joinWords]
    · have hb := h b (by simp)
      have hrest : ∀ x ∈ bs, x ≠ [] := fun x hx => h x (by simp [hx])
      have hjne : bs.join ≠ [] := join_ne_nil bs hbs hrest
      have hjc : (b :: bs).join = b ++ bs.join := rfl
      rw [List.map_cons, hjc]
      rw [joinWords_cons (joinWords b) (bs.map joinWords), if_neg (by simp [hbs])]
      rw [ih hrest, joinWords_append b bs.join hb hjne]

/-- Helper: whitespace collapsing walks through whitespace-free
characters unchanged. -/
theorem collapseWsAux_nonspace_walk (x : List Char) (hx : ∀ c ∈ x, isSpace c = false) :
    ∀ (r : List Char), collapseWsAux false (x ++ r) = x ++ collapseWsAux false r := by
  induction x with
  | nil => intro r; rfl
  | cons c x ih =>
    intro r
    have hc := hx c (by simp)
    simp only [List.cons_append, collapseWsAux, hc, Bool.false_eq_true, if_false]
    show c :: collapseWsAux false (x ++ r) = c :: (x ++ collapseWsAux false r)
    rw [ih (fun d hd => hx d (by simp [hd])) r]

/-- Helper: collapse modes agree on texts not starting with a space. -/
theorem collapse_modes_head (l : List Char)
    (h : l = [] ∨ ∃ c t, l = c :: t ∧ isSpace c = false) :
    collapseWsAux true l = collapseWsAux false l := by
  rcases h with h | ⟨c, t, he, hc⟩
  · subst h; rfl
  · subst he
    simp [collapseWsAux, hc]

/-- Helper: a join of good words starts with a word character. -/
theorem joinWords_head (g : List (List Char)) (hg : ∀ w ∈ g, palavraBoa w)
    (hne : g ≠ []) : ∃ c t, joinWords g = c :: t ∧ isSpace c = false := by
  cases g with
  | nil => exact absurd rfl hne
  | cons w g2 =>
    have hw := hg w (by simp)
    cases hcase : w with
    | nil => exact absurd hcase hw.1
    | cons c w2 =>
      refine ⟨c, w2 ++ (if g2 = [] then [] else ' ' :: joinWords g2), ?_, ?_⟩
      · simp [joinWords_cons, hcase]
      · apply hw.2
        rw [hcase]
        simp

/-- Helper: a join of good words is already whitespace-collapsed. -/
theorem collapse_joinWords (g : List (List Char)) (hg : ∀ w ∈ g, palavraBoa w) :
    collapseWs (joinWords g) = joinWords g := by
  induction g with
  | nil => rfl
  | cons w g2 ih =>
    have hw := hg w (by simp)
    have hg2 : ∀ x ∈ g2, palavraBoa x := fun x hx => hg x (by simp [hx])
    rw [joinWords_cons]
    by_cases hg2n : g2 = []
    · rw [if_pos hg2n]
      unfold collapseWs
      rw [← List.append_nil w] at hw ⊢
      rw [collapseWsAux_nonspace_walk _ (by simpa using hw.2) []]
      rfl
    · rw [if_neg hg2n]
      unfold collapseWs
      rw [collapseWsAux_nonspace_walk w hw.2 (' ' :: joinWords g2),
        collapse_false_space ' ' _ rfl,
        collapse_modes_head _ (Or.inr (joinWords_head g2 hg2 hg2n))]
      unfold collapseWs at ih
      rw [ih hg2]

/-- Helper: a join of good words is already stripped. -/
theorem pyStrip_joinWords (g : List (List Char)) (hg : ∀ w ∈ g, palavraBoa w) :
    pyStrip (joinWords g) = joinWords g := by
  have h1 : pyStrip (collapseWs (joinWords g)) = joinWords (splitWs (joinWords g)) :=
    pyStrip_collapse _
  rw [collapse_joinWords g hg, splitWs_joinWords g hg] at h1
  exact h1

/-- Helper: a trailing space disappears under strip. -/
theorem pyStrip_append_space (y : List Char) : pyStrip (y ++ [' ']) = pyStrip y := by
  unfold pyStrip
  rw [List.dropWhile_append]
  by_cases h : (y.dropWhile isSpace).isEmpty
  · rw [if_pos h]
    rw [List.isEmpty_iff] at h
    rw [h]
    rfl
  · rw [if_neg h]
    rw [rstrip_append]
    have he : rstrip [' '] = [] := rfl
    rw [if_pos he]

/-- Helper: a leading optional space disappears under strip. -/
theorem pyStrip_spOpt (sp : Bool) (x : List Char) :
    pyStrip ((if sp then [' '] else []) ++ x) = pyStrip x := by
  cases sp with
  | true => exact pyStrip_cons_space ' ' x rfl
  | false => rfl

/-- Helper: characters of a join are word characters or spaces. -/
theorem joinWords_chars (g : List (List Char)) :
    ∀ c ∈ joinWords g, (∃ w ∈ g, c ∈ w) ∨ c = ' ' := by
  induction g with
  | nil => intro c hc; simp [joinWords] at hc
  | cons w g2 ih =>
    intro c hc
    rw [joinWords_cons] at hc
    rcases List.mem_append.mp hc with hc | hc
    · exact Or.inl ⟨w, by simp, hc⟩
    · by_cases hg2 : g2 = []
      · rw [if_pos hg2] at hc
        simp at hc
      · rw [if_neg hg2] at hc
        rcases List.mem_cons.mp hc with hc | hc
        · exact Or.inr hc
        · rcases ih c hc with ⟨w2, hw2, hcw⟩ | hsp
          · exact Or.inl ⟨w2, by simp [hw2], hcw⟩
          · exact Or.inr hsp

/-- Helper: blocks concatenate back to the word list. -/
theorem blocosAux_join (rest : List (List Char)) :
    ∀ (acc : List (List Char)), (blocosAux acc rest).join = acc.reverse ++ rest := by
  induction rest with
  | nil =>
    intro acc
    by_cases h : acc = []
    · simp [blocosAux, h]
    · simp [blocosAux, h]
  | cons w rest ih =>
    intro acc
    by_cases hw : ehPontuacao w = true
    · simp only [blocosAux, hw, if_pos]
      have hjc : ((acc.reverse ++ [w]) :: blocosAux [] rest).join =
          (acc.reverse ++ [w]) ++ (blocosAux [] rest).join := rfl
      rw [hjc, ih []]
      simp
    · simp only [blocosAux, hw, Bool.false_eq_true, if_false]
      rw [ih (w :: acc)]
      simp

/-- Helper: every block is nonempty. -/
theorem blocosAux_ne_nil (rest : List (List Char)) :
    ∀ (acc : List (List Char)), ∀ b ∈ blocosAux acc rest, b ≠ [] := by
  induction rest with
  | nil =>
    intro acc b hb
    by_cases h : acc = []
    · simp [blocosAux, h] at hb
    · simp only [blocosAux, if_neg h, List.mem_singleton] at hb
      subst hb
      simpa using h
  | cons w rest ih =>
    intro acc b hb
    by_cases hw : ehPontuacao w = true
    · simp only [blocosAux, hw, if_pos, List.mem_cons] at hb
      rcases hb with hb | hb
      · subst hb
        simp
      · exact ih [] b hb
    · simp only [blocosAux, hw, Bool.false_eq_true, if_false] at hb
      exact ih (w :: acc) b hb

/-- Helper: the punctuation splitter accumulates punctuation-free
characters into the current no-match part. -/
theorem splitPunctAux_gap_walk (x : List Char) (hx : ∀ c ∈ x, isPunct c = false) :
    ∀ (acc r : List Char),
      splitPunctAux false acc (x ++ r) = splitPunctAux false (x.reverse ++ acc) r := by
  induction x with
  | nil => intro acc r; simp
  | cons c x ih =>
    intro acc r
    have hc := hx c (by simp)
    simp only [List.cons_append, splitPunctAux, hc, Bool.false_eq_true, if_false]
    show splitPunctAux false (c :: acc) (x ++ r) = _
    rw [ih (fun d hd => hx d (by simp [hd])) (c :: acc) r]
    congr 1
    simp

/-- Helper: the punctuation splitter accumulates punctuation characters
into the current run. -/
theorem splitPunctAux_run_walk (x : List Char) (hx : ∀ c ∈ x, isPunct c = true) :
    ∀ (acc r : List Char),
      splitPunctAux true acc (x ++ r) = splitPunctAux true (x.reverse ++ acc) r := by
  induction x with
  | nil => intro acc r; simp
  | cons c x ih =>
    intro acc r
    have hc := hx c (by simp)
    simp only [List.cons_append, splitPunctAux, hc, if_pos]
    show splitPunctAux true (c :: acc) (x ++ r) = _
    rw [ih (fun d hd => hx d (by simp [hd])) (c :: acc) r]
    congr 1
    simp

/-- Helper: shape of `re.split(r"([.!?]+)")` on a join of good
homogeneous words, relative to a pending punctuation-free gap `g` and a
leading-space flag `sp`. -/
theorem splitPunct_parts (rest : List (List Char)) :
    ∀ (hrest : ∀ w ∈ rest, palavraBoa w ∧ palavraHomogenea w)
      (sp : Bool) (g : List (List Char)),
      (∀ w ∈ g, palavraBoa w ∧ (∀ c ∈ w, isPunct c = false)) →
      splitPunctAux false (((if sp then [' '] else []) ++ joinWords g).reverse)
          (if g = [] then joinWords rest
           else if rest = [] then [] else ' ' :: joinWords rest) =
        partsAux sp g rest := by
  induction rest with
  | nil =>
    intro hrest sp g hg
    have hin : (if g = [] then joinWords ([] : List (List Char))
        else if ([] : List (List Char)) = ([] : List (List Char)) then []
        else ' ' :: joinWords ([] : List (List Char))) = ([] : List Char) := by
      by_cases hgn : g = [] <;> simp [hgn, joinWords]
    rw [hin]
    simp [splitPunctAux, partsAux, gapFinal]
  | cons w rest2 ih =>
    intro hrest sp g hg
    have hw := hrest w (by simp)
    have hrest2 : ∀ v ∈ rest2, palavraBoa v ∧ palavraHomogenea v :=
      fun v hv => hrest v (by simp [hv])
    have hin : (if g = [] then joinWords (w :: rest2)
        else if (w :: rest2) = [] then [] else ' ' :: joinWords (w :: rest2)) =
        (if g = [] then [] else [' ']) ++
          (w ++ (if rest2 = [] then [] else ' ' :: joinWords rest2)) := by
      rw [joinWords_cons]
      by_cases hgn : g = [] <;> simp [hgn]
    rw [hin]
    -- step over the optional separating space into a common accumulator
    have hstep : splitPunctAux false (((if sp then [' '] else []) ++ joinWords g).reverse)
        ((if g = [] then [] else [' ']) ++
          (w ++ (if rest2 = [] then [] else ' ' :: joinWords rest2))) =
        splitPunctAux false ((gapSeguido sp g).reverse)
          (w ++ (if rest2 = [] then [] else ' ' :: joinWords rest2)) := by
      by_cases hgn : g = []
      · subst hgn
        simp [gapSeguido, joinWords]
      · simp only [hgn, if_neg, Bool.false_eq_true, if_false]
        have hsp : isPunct ' ' = false := rfl
        simp only [List.singleton_append, splitPunctAux, hsp, Bool.false_eq_true,
          if_false, gapSeguido, if_neg hgn]
        congr 1
        simp
    rw [hstep]
    by_cases hpw : ehPontuacao w = true
    · -- w is a pure punctuation word: it closes the gap and forms a run
      have hallp : ∀ c ∈ w, isPunct c = true := by
        rcases hw.2 with hcase | hcase
        · exact hcase
        · exfalso
          rcases List.any_eq_true.mp hpw with ⟨c, hc, hcp⟩
          rw [hcase c hc] at hcp
          exact absurd hcp (by simp)
      obtain ⟨c, wt, hwe⟩ : ∃ c wt, w = c :: wt := by
        cases w with
        | nil => exact absurd rfl hw.1.1
        | cons c wt => exact ⟨c, wt, rfl⟩
      have hcp : isPunct c = true := hallp c (by rw [hwe]; simp)
      have hwt : ∀ d ∈ wt, isPunct d = true := by
        intro d hd
        exact hallp d (by rw [hwe]; simp [hd])
      rw [hwe]
      simp only [List.cons_append, splitPunctAux, hcp, if_pos, List.reverse_reverse]
      show gapSeguido sp g ::
          splitPunctAux true [c]
            (wt ++ (if rest2 = [] then [] else ' ' :: joinWords rest2)) = _
      rw [splitPunctAux_run_walk wt hwt [c] _]
      by_cases hr2 : rest2 = []
      · simp only [hr2, if_pos]
        have hend : splitPunctAux true (wt.reverse ++ [c]) [] =
            [c :: wt, []] := by
          simp [splitPunctAux]
        rw [hend]
        have hpw2 : ehPontuacao (c :: wt) = true := by rw [← hwe]; exact hpw
        simp [partsAux, hpw2, hr2]
      · simp only [if_neg hr2]
        have hsp : isPunct ' ' = false := rfl
        simp only [splitPunctAux, hsp, Bool.false_eq_true, if_false]
        have hih := ih hrest2 true [] (by simp)
        simp [joinWords] at hih
        rw [hih]
        have hpw2 : ehPontuacao (c :: wt) = true := by rw [← hwe]; exact hpw
        simp [partsAux, hpw2, hr2]
    · -- w is punctuation-free: it joins the pending gap
      have hallnp : ∀ c ∈ w, isPunct c = false := by
        intro c hc
        cases hcase : isPunct c
        · rfl
        · exact absurd (List.any_eq_true.mpr ⟨c, hc, hcase⟩)
            (by simpa [ehPontuacao] using hpw)
      rw [splitPunctAux_gap_walk w hallnp _ _]
      have hacc2 : w.reverse ++ (gapSeguido sp g).reverse =
          (((if sp then [' '] else []) ++ joinWords (g ++ [w])).reverse) := by
        by_cases hgn : g = []
        · subst hgn
          simp [gapSeguido, joinWords]
        · have hje : joinWords (g ++ [w]) = joinWords g ++ ' ' :: joinWords [w] :=
            joinWords_append g [w] hgn (by simp)
          rw [hje]
          simp [gapSeguido, hgn, joinWords]
      rw [hacc2]
      have hgw : ∀ v ∈ g ++ [w], palavraBoa v ∧ (∀ c ∈ v, isPunct c = false) := by
        intro v hv
        rcases List.mem_append.mp hv with hv | hv
        · exact hg v hv
        · rw [List.mem_singleton.mp hv]
          exact ⟨hw.1, hallnp⟩
      have hih := ih hrest2 sp (g ++ [w]) hgw
      have hgne : g ++ [w] ≠ [] := by simp
      rw [if_neg hgne] at hih
      rw [hih]
      simp [partsAux, hpw]

/-- Helper: shape of the punctuation split of a join of good
homogeneous words. -/
theorem splitPunct_joinWords (ws : List (List Char))
    (h : ∀ w ∈ ws, palavraBoa w ∧ palavraHomogenea w) :
    splitPunct (joinWords ws) = partsAux false [] ws := by
  have hp := splitPunct_parts ws h false [] (by simp)
  simpa [splitPunct, joinWords] using hp

/-- Helper: strip of a gap part before a punctuation run. -/
theorem pyStrip_gapSeguido (sp : Bool) (g : List (List Char))
    (hg : ∀ w ∈ g, palavraBoa w) : pyStrip (gapSeguido sp g) = joinWords g := by
  unfold gapSeguido
  rw [pyStrip_spOpt]
  by_cases hgn : g = []
  · subst hgn
    simp [pyStrip, rstrip, joinWords]
  · rw [if_neg hgn, pyStrip_append_space, pyStrip_joinWords g hg]

/-- Helper: strip of a final gap part. -/
theorem pyStrip_gapFinal (sp : Bool) (g : List (List Char))
    (hg : ∀ w ∈ g, palavraBoa w) : pyStrip (gapFinal sp g) = joinWords g := by
  unfold gapFinal
  rw [pyStrip_spOpt, pyStrip_joinWords g hg]

/-- Helper: a join of punctuation-free words has no punctuation. -/
theorem joinWords_any_punct (g : List (List Char))
    (hg : ∀ w ∈ g, ∀ c ∈ w, isPunct c = false) :
    (joinWords g).any isPunct = false := by
  rw [List.any_eq_false]
  intro c hc
  rcases joinWords_chars g c hc with ⟨w, hwg, hcw⟩ | hsp
  · simp [hg w hwg c hcw]
  · subst hsp
    simp [isPunct]

/-- Helper: a blank part is skipped by the sentence rebuild. -/
theorem reconstruirAux_cons_skip (buffer p0 : List Char) (rest : List (List Char))
    (h : pyStrip p0 = []) :
    reconstruirAux buffer (p0 :: rest) = reconstruirAux buffer rest := by
  simp only [reconstruirAux, h, if_pos]

/-- Helper: a punctuation-free part extends the buffer. -/
theorem reconstruirAux_cons_word (buffer p0 : List Char) (rest : List (List Char))
    (hne : pyStrip p0 ≠ []) (hnp : (pyStrip p0).any isPunct = false) :
    reconstruirAux buffer (p0 :: rest) =
      reconstruirAux (if buffer = [] then pyStrip p0
        else pyStrip (buffer ++ ' ' :: pyStrip p0)) rest := by
  simp only [reconstruirAux, hne, if_neg, hnp, Bool.false_eq_true, if_false]
  by_cases hb : buffer = [] <;> simp [hb]

/-- Helper: a punctuation part with a pending buffer emits the
buffered sentence when long enough. -/
theorem reconstruirAux_cons_punct (buffer p0 : List Char) (rest : List (List Char))
    (hne : pyStrip p0 ≠ []) (hp : (pyStrip p0).any isPunct = true)
    (hbuf : buffer ≠ []) :
    reconstruirAux buffer (p0 :: rest) =
      (if 5 < (pyStrip (buffer ++ ' ' :: pyStrip p0)).length
        then [pyStrip (buffer ++ ' ' :: pyStrip p0)] else []) ++
        reconstruirAux [] rest := by
  simp only [reconstruirAux, hne, if_neg, hp, if_pos, hbuf]
  rw [if_pos hbuf]
  by_cases hlen : 5 < (pyStrip (buffer ++ ' ' :: pyStrip p0)).length <;> simp [hlen]

/-- Helper: a punctuation part with no pending buffer stands alone. -/
theorem reconstruirAux_cons_punct_nobuf (p0 : List Char) (rest : List (List Char))
    (hne : pyStrip p0 ≠ []) (hp : (pyStrip p0).any isPunct = true) :
    reconstruirAux [] (p0 :: rest) =
      (if 5 < (pyStrip p0).length then [pyStrip p0] else []) ++
        reconstruirAux [] rest := by
  simp only [reconstruirAux, hne, if_neg, hp, if_pos]
  rw [if_neg (by simp : ¬ (([] : List Char) ≠ []))]
  by_cases hlen : 5 < (pyStrip p0).length <;> simp [hlen]

/-- Helper: the sentence rebuild over the parts of a normalized word
list produces exactly the joined blocks longer than 5 characters. -/
theorem reconstruir_partsAux (rest : List (List Char)) :
    ∀ (hrest : ∀ w ∈ rest, palavraBoa w ∧ palavraHomogenea w)
      (sp : Bool) (g : List (List Char)),
      (∀ w ∈ g, palavraBoa w ∧ (∀ c ∈ w, isPunct c = false)) →
      reconstruirAux [] (partsAux sp g rest) =
        ((blocosAux g.reverse rest).map joinWords).filter
          (fun s => decide (5 < s.length)) := by
  induction rest with
  | nil =>
    intro hrest sp g hg
    have hgood : ∀ w ∈ g, palavraBoa w := fun w hw => (hg w hw).1
    have hstrip : pyStrip (gapFinal sp g) = joinWords g := pyStrip_gapFinal sp g hgood
    show reconstruirAux [] [gapFinal sp g] = _
    by_cases hgn : g = []
    · subst hgn
      rw [reconstruirAux_cons_skip [] _ [] (by simpa [joinWords] using hstrip)]
      simp [reconstruirAux, blocosAux]
    · have hjne : joinWords g ≠ [] := fun hcon =>
        hgn ((joinWords_eq_nil_iff g (fun w hw => (hgood w hw).1)).mp hcon)
      rw [reconstruirAux_cons_word [] _ [] (by rw [hstrip]; exact hjne)
        (by rw [hstrip]; exact joinWords_any_punct g (fun w hw => (hg w hw).2))]
      rw [if_pos rfl, hstrip]
      have hrev : g.reverse ≠ [] := by simpa using hgn
      simp only [reconstruirAux, blocosAux, if_neg hrev, List.reverse_reverse,
        List.map_cons, List.map_nil]
      by_cases hlen : 5 < (joinWords g).length
      · rw [if_pos ⟨hjne, hlen⟩]
        simp [List.filter, hlen]
      · rw [if_neg (fun hcon => hlen hcon.2)]
        simp [List.filter, hlen]
  | cons w rest2 ih =>
    intro hrest sp g hg
    have hw := hrest w (by simp)
    have hrest2 : ∀ v ∈ rest2, palavraBoa v ∧ palavraHomogenea v :=
      fun v hv => hrest v (by simp [hv])
    have hgood : ∀ x ∈ g, palavraBoa x := fun x hx => (hg x hx).1
    by_cases hpw : ehPontuacao w = true
    · have hallp : ∀ c ∈ w, isPunct c = true := by
        rcases hw.2 with hcase | hcase
        · exact hcase
        · exfalso
          rcases List.any_eq_true.mp hpw with ⟨c, hc, hcp⟩
          rw [hcase c hc] at hcp
          exact absurd hcp (by simp)
      have htail : reconstruirAux []
          (if rest2 = [] then [[]] else partsAux true [] rest2) =
          ((blocosAux [] rest2).map joinWords).filter
            (fun s => decide (5 < s.length)) := by
        by_cases hr2 : rest2 = []
        · subst hr2
          rw [if_pos rfl, reconstruirAux_cons_skip [] [] [] rfl]
          simp [reconstruirAux, blocosAux]
        · rw [if_neg hr2]
          have hih := ih hrest2 true [] (by simp)
          simpa using hih
      have hps_w : pyStrip w = w :=
        pyStrip_of_nonspace w (fun c hc => punct_nonspace c (hallp c hc))
      have hw_any : w.any isPunct = true := hpw
      have hwne : w ≠ [] := hw.1.1
      have hstrip : pyStrip (gapSeguido sp g) = joinWords g :=
        pyStrip_gapSeguido sp g hgood
      simp only [partsAux, hpw, if_pos]
      by_cases hgn : g = []
      · subst hgn
        rw [reconstruirAux_cons_skip [] _ _ (by simpa [joinWords] using hstrip)]
        rw [reconstruirAux_cons_punct_nobuf w _ (by rw [hps_w]; exact hwne)
          (by rw [hps_w]; exact hw_any)]
        rw [hps_w, htail]
        simp only [List.reverse_nil, blocosAux, hpw, if_pos, List.nil_append,
          List.map_cons]
        rw [List.filter_cons]
        have hjw : joinWords [w] = w := rfl
        rw [hjw]
        by_cases hlen : 5 < w.length <;> simp [hlen]
      · have hjne : joinWords g ≠ [] := fun hcon =>
          hgn ((joinWords_eq_nil_iff g (fun x hx => (hgood x hx).1)).mp hcon)
        rw [reconstruirAux_cons_word [] _ _ (by rw [hstrip]; exact hjne)
          (by rw [hstrip]; exact joinWords_any_punct g (fun x hx => (hg x hx).2))]
        rw [if_pos rfl, hstrip]
        rw [reconstruirAux_cons_punct (joinWords g) w _ (by rw [hps_w]; exact hwne)
          (by rw [hps_w]; exact hw_any) hjne]
        rw [hps_w, htail]
        have hgw : ∀ v ∈ g ++ [w], palavraBoa v := by
          intro v hv
          rcases List.mem_append.mp hv with hv | hv
          · exact hgood v hv
          · rw [List.mem_singleton.mp hv]
            exact hw.1
        have hS : pyStrip (joinWords g ++ ' ' :: w) = joinWords (g ++ [w]) := by
          have hje : joinWords (g ++ [w]) = joinWords g ++ ' ' :: w :=
            joinWords_append g [w] hgn (by simp)
          rw [← hje, pyStrip_joinWords _ hgw]
        rw [hS]
        simp only [blocosAux, hpw, if_pos, List.reverse_reverse, List.map_cons]
        rw [List.filter_cons]
        by_cases hlen : 5 < (joinWords (g ++ [w])).length <;> simp [hlen]
    · have hallnp : ∀ c ∈ w, isPunct c = false := by
        intro c hc
        cases hcase : isPunct c
        · rfl
        · exact absurd (List.any_eq_true.mpr ⟨c, hc, hcase⟩)
            (by simpa [ehPontuacao] using hpw)
      simp only [partsAux, hpw, Bool.false_eq_true, if_false]
      have hgw : ∀ v ∈ g ++ [w], palavraBoa v ∧ (∀ c ∈ v, isPunct c = false) := by
        intro v hv
        rcases List.mem_append.mp hv with hv | hv
        · exact hg v hv
        · rw [List.mem_singleton.mp hv]
          exact ⟨hw.1, hallnp⟩
      rw [ih hrest2 sp (g ++ [w]) hgw]
      have hrev : (g ++ [w]).reverse = w :: g.reverse := by simp
      rw [hrev]
      simp only [blocosAux, hpw, Bool.false_eq_true, if_false]

/-- Helper: the sentence rebuild of a normalized text is the list of
its joined blocks longer than 5 characters. -/
theorem reconstruir_blocos (ws : List (List Char))
    (h : ∀ w ∈ ws, palavraBoa w ∧ palavraHomogenea w) :
    reconstruirSentencas (joinWords ws) =
      ((blocos ws).map joinWords).filter (fun s => decide (5 < s.length)) := by
  unfold reconstruirSentencas blocos
  rw [splitPunct_joinWords ws h]
  have hp := reconstruir_partsAux ws h false [] (by simp)
  simpa using hp

/-- Helper (Lemma B): on a normalized text the cleaner never increases
the length. -/
theorem limpar_length_le_of_normalizado (u : List Char) (hu : Normalizado u) :
    (limpar_repeticoes u).length ≤ u.length := by
  by_cases hz : u = []
  · subst hz
    simp [limpar_repeticoes]
  · have hgoodhom : ∀ w ∈ splitWs u, palavraBoa w ∧ palavraHomogenea w :=
      fun w hw => ⟨splitWs_boa u w hw, hu.2 w hw⟩
    obtain ⟨ws1, hsub1, hpad⟩ :=
      padroes_join (splitWs u) (fun w hw => (hgoodhom w hw).1)
    have hgood1 : ∀ w ∈ ws1, palavraBoa w ∧ palavraHomogenea w :=
      fun w hw => hgoodhom w (hsub1.subset hw)
    have hu1 : u = joinWords (splitWs u) := hu.1
    have hshape : limpar_repeticoes u = pyStrip (collapseWs (joinWords
        (removerRepeticoesSentencas
          (reconstruirSentencas (removerRepeticoesPadroes u))))) := by
      simp only [limpar_repeticoes, if_neg hz]
    have hsents : reconstruirSentencas (removerRepeticoesPadroes u) =
        ((blocos ws1).map joinWords).filter (fun s => decide (5 < s.length)) := by
      conv_lhs => rw [hu1, hpad]
      exact reconstruir_blocos ws1 hgood1
    have hfm : ((blocos ws1).map joinWords).filter (fun s => decide (5 < s.length)) =
        ((blocos ws1).filter (fun b => decide (5 < (joinWords b).length))).map
          joinWords := by
      rw [List.filter_map]
      rfl
    have hbne : ∀ b ∈ (blocos ws1).filter
        (fun b => decide (5 < (joinWords b).length)), b ≠ [] :=
      fun b hb => blocosAux_ne_nil ws1 [] b (List.mem_of_mem_filter hb)
    have hsubJ : List.Sublist
        (((blocos ws1).filter (fun b => decide (5 < (joinWords b).length))).join)
        ws1 := by
      have h1 := join_sublist_of_sublist _ _
        (List.filter_sublist (l := blocos ws1)
          (p := fun b => decide (5 < (joinWords b).length)))
      have h2 : (blocos ws1).join = ws1 := by
        unfold blocos
        rw [blocosAux_join ws1 []]
        simp
      rw [h2] at h1
      exact h1
    have step1 : (limpar_repeticoes u).length ≤
        (joinWords (removerRepeticoesSentencas
          (((blocos ws1).map joinWords).filter
            (fun s => decide (5 < s.length))))).length := by
      rw [hshape, hsents]
      exact le_trans (pyStrip_length_le _) (collapseWsAux_length_le _ false)
    calc (limpar_repeticoes u).length
        ≤ (joinWords (removerRepeticoesSentencas
            (((blocos ws1).map joinWords).filter
              (fun s => decide (5 < s.length))))).length := step1
      _ ≤ (joinWords (((blocos ws1).map joinWords).filter
            (fun s => decide (5 < s.length)))).length :=
          joinWords_length_mono _ _ (removerRepAux_sublist _ none 0)
      _ = (joinWords (((blocos ws1).filter
            (fun b => decide (5 < (joinWords b).length))).join)).length := by
          rw [hfm, joinWords_map_join _ hbne]
      _ ≤ (joinWords ws1).length := joinWords_length_mono _ _ hsubJ
      _ ≤ (joinWords (splitWs u)).length := joinWords_length_mono _ _ hsub1
      _ = u.length := by rw [← hu1]

/-- Claim C4: applying the cleaner to its own output never increases
the length — `len(limpar_repeticoes(limpar_repeticoes(t))) <=
len(limpar_repeticoes(t))` for every text `t`. -/
theorem c4_limpeza_nao_cresce (t : List Char) :
    (limpar_repeticoes (limpar_repeticoes t)).length ≤ (limpar_repeticoes t).length :=
  limpar_length_le_of_normalizado (limpar_repeticoes t) (limpar_normalizado t)

end Voxly
